import Mathlib

/-!
Verification development for the continental-calendar curation pipeline.

The repository is a Node/TypeScript project whose core consists of:
  - `scripts/promote-intake.mjs` (PromotionEngine: `applyPromotion`, `parseCsvIndices`, `main`),
  - `scripts/audit-data.mjs` (AuditEngine: `main`),
  - the schema migrator (`migrateOne`),
  - `lib/calendar.ts` (`todayMappedIso`, `pad2`),
  - the scaffold generator (`emptyDay` and its date loop).

Records and intake pools are JSON files.  We embed JSON values as the
inductive `JVal`, JavaScript objects as ordered association lists of
fields (JS objects preserve insertion order; property assignment keeps
an existing key in place and appends a new one), and each script's
`main` as a pure function from the relevant file contents to an exit
code together with the file contents after the run.
-/

set_option maxRecDepth 4000
set_option maxHeartbeats 1000000

/-- A JSON value as produced by `JSON.parse`: null, booleans, numbers,
strings, arrays, and objects (ordered field lists).  The numeric leaf is
embedded as `Int`; the pipeline never does arithmetic on stored numbers. -/
inductive JVal where
  | null : JVal
  | bool : Bool → JVal
  | num : Int → JVal
  | str : String → JVal
  | arr : List JVal → JVal
  | obj : List (String × JVal) → JVal
deriving Repr

/-- A parsed JSON object: its ordered list of fields. -/
abbrev Obj := List (String × JVal)

/-- JS property read `o[k]`: the value at the (first) field named `k`,
`none` for `undefined`. -/
def getField : Obj → String → Option JVal
  | [], _ => none
  | (k', v) :: o, k => if k' = k then some v else getField o k

/-- JS `Object.prototype.hasOwnProperty.call(o, k)`. -/
def hasOwn : Obj → String → Bool
  | [], _ => false
  | (k', _) :: o, k => k' = k || hasOwn o k

/-- JS property assignment `o[k] = v`: replaces the value in place when
the key exists, appends the field otherwise. -/
def setField : Obj → String → JVal → Obj
  | [], k, v => [(k, v)]
  | (k', w) :: o, k, v =>
    if k' = k then (k, v) :: o else (k', w) :: setField o k v

/-- JS `delete o[k]`. -/
def delField : Obj → String → Obj
  | [], _ => []
  | (k', v) :: o, k =>
    if k' = k then delField o k else (k', v) :: delField o k

/-- `Array.isArray(o[k])` for a property read result. -/
def isArrVal : Option JVal → Bool
  | some (.arr _) => true
  | _ => false

/-- The idiom `Array.isArray(o[k]) ? o[k] : []` used throughout the
scripts: the category list at `k`, defaulting to empty. -/
def getArr (o : Obj) (k : String) : List JVal :=
  match getField o k with
  | some (.arr xs) => xs
  | _ => []

/-- The `ensureArray(obj, key)` helper shared verbatim by
promote-intake, seed-intake and the migrator: if the key is absent or
its value is not an array, set it to `[]`. -/
def ensureArray (o : Obj) (k : String) : Obj :=
  if isArrVal (getField o k) then o else setField o k (.arr [])

/-- The four current-shape category keys, in the `CAPS` declaration
order of promote-intake.mjs and audit-data.mjs (also `NEW_KEYS` of the
migrator and `KEYS` of seed-intake). -/
def capKeys : List String :=
  ["soldiers_day", "men_of_command", "continental_congress_committees",
   "voices_beyond_the_line"]

/-- The `CAPS` table: per-category cap, 3 for the primary category and 2
for each secondary.  Call sites only ever look up the four `capKeys`. -/
def capOf : String → Nat
  | "soldiers_day" => 3
  | "men_of_command" => 2
  | "continental_congress_committees" => 2
  | "voices_beyond_the_line" => 2
  | _ => 0

/-- The legacy-shape category keys (`OLD_KEYS` of the migrator, also the
fields of the scaffold's `emptyDay`). -/
def oldKeys : List String :=
  ["continental_congress", "battles", "letters_and_deeds"]

/-! ## ProjectCalendar: the wall-clock mapping (`todayMappedIso`) -/

/-- `pad2` from lib/calendar.ts: `String(n).padStart(2, "0")`. -/
def pad2 (n : Nat) : String :=
  let s := toString n
  if s.length < 2 then "0" ++ s else s

/-- The pure core of `todayMappedIso` (lib/calendar.ts) and of
`publishIsoTodayMapped` (seed-intake/status): given the wall-clock month
and day, pick label-year 1775 when `m > 7 || (m == 7 && d >= 4)` and
1776 otherwise, and format `year-mm-dd`. -/
def todayMappedIso (m d : Nat) : String :=
  let afterJul4 : Bool := decide (m > 7) || (decide (m = 7) && decide (d ≥ 4))
  let year : Nat := if afterJul4 then 1775 else 1776
  toString year ++ "-" ++ pad2 m ++ "-" ++ pad2 d

/-- Spec-side cutover predicate, from the spec's words: `(m, d)` is on
or after the fixed cutover `(month 7, day 4)` in lexicographic order. -/
def onOrAfterCutover (m d : Nat) : Prop :=
  7 < m ∨ (m = 7 ∧ 4 ≤ d)

instance (m d : Nat) : Decidable (onOrAfterCutover m d) := by
  unfold onOrAfterCutover; infer_instance

/-! ## PromotionEngine (scripts/promote-intake.mjs) -/

/-- Whitespace as `String.prototype.trim` strips it from the numeric
CSV tokens this tool sees (space, tab, newline, carriage return). -/
def isWsChar (c : Char) : Bool :=
  c = ' ' || c = '\t' || c = '\n' || c = '\r'

/-- `x.trim()` on a token, as a character list. -/
def trimChars (cs : List Char) : List Char :=
  ((cs.dropWhile isWsChar).reverse.dropWhile isWsChar).reverse

/-- `s.split(",")` on a character list: the comma-separated pieces, in
order, empty pieces included. -/
def splitCommas : List Char → List (List Char)
  | [] => [[]]
  | c :: rest =>
    if c = ',' then [] :: splitCommas rest
    else match splitCommas rest with
      | [] => [[c]]
      | piece :: pieces => (c :: piece) :: pieces

/-- Accumulator loop of decimal-numeral conversion: consume digits,
fail on any non-digit. -/
def digitsToNat : List Char → Nat → Option Nat
  | [], acc => some acc
  | c :: rest, acc =>
    if c.isDigit then digitsToNat rest (acc * 10 + (c.toNat - 48))
    else none

/-- JS `Number(tok)` for a trimmed, nonempty selection token, restricted
to the base-10 integer numerals the selection CSV grammar uses: an
optional minus sign followed by decimal digits converts to that integer,
anything else converts to NaN (`none`); `Number.isFinite` then rejects
the `none` case.  (JS `Number` also accepts floating-point and hex
literals; those never denote 1-based positions and are outside this
embedding.) -/
def jsNumberInt : List Char → Option Int
  | '-' :: rest =>
    if rest = [] then none
    else (digitsToNat rest 0).map (fun n => -(n : Int))
  | cs =>
    if cs = [] then none
    else (digitsToNat cs 0).map (fun n => (n : Int))

/-- The token list of a CSV string: `s.split(",")`, each piece trimmed,
empty pieces dropped (`filter(Boolean)`). -/
def csvTokens (s : String) : List (List Char) :=
  ((splitCommas s.data).map trimChars).filter (fun t => t ≠ [])

/-- `parseCsvIndices(s)` from promote-intake.mjs: `[]` for an absent or
empty flag value, otherwise the tokens converted by `Number` with
non-finite results and values below 1 filtered out. -/
def parseCsvIndices (s : Option String) : List Int :=
  match s with
  | none => []
  | some s =>
    if s = "" then []
    else ((csvTokens s).filterMap jsNumberInt).filter (fun n => n ≥ 1)

/-- The resolution loop of `applyPromotion`: for each supplied index
`n`, let `i = n - 1`; skip it when `i < 0` or `i ≥ cand.length`,
otherwise push `cand[i]`, preserving the order the indices were
supplied in. -/
def resolvePicks (cand : List JVal) (indices : List Int) : List JVal :=
  indices.filterMap (fun n =>
    let i := n - 1
    if i < 0 ∨ i ≥ (cand.length : Int) then none
    else cand.get? i.toNat)

/-- Result of `applyPromotion`: the mutated data and intake objects and
the returned `{ pickedCount, finalCount }` report. -/
structure PromoRes where
  data : Obj
  intake : Obj
  pickedCount : Nat
  finalCount : Nat
deriving Repr

/-- `applyPromotion({data, intake, key, indices, overwrite})` from
promote-intake.mjs: normalize both category fields to arrays, resolve
the indices against the intake candidates, take the base (`[]` under
overwrite, the record's current list otherwise), concatenate, and keep
the first `CAPS[key]` entries. -/
def applyPromotion (data intake : Obj) (key : String) (indices : List Int)
    (overwrite : Bool) : PromoRes :=
  let data := ensureArray data key
  let intake := ensureArray intake key
  let picked := resolvePicks (getArr intake key) indices
  let base := if overwrite then [] else getArr data key
  let merged := base ++ picked
  let final := merged.take (capOf key)
  ⟨setField data key (.arr final), intake, picked.length, final.length⟩

/-- The normalization loop of `main`: `ensureArray` over all four
category keys of one object. -/
def normalizeKeys (o : Obj) : Obj :=
  capKeys.foldl ensureArray o

/-- One conditional `applyPromotion` call of `main`: the category is
promoted only when its index list is non-empty (`if (xsIdx.length)`),
threading the mutated data and intake objects. -/
def promoteStep (p : Obj × Obj) (key : String) (idx : List Int)
    (overwrite : Bool) : Obj × Obj :=
  if idx ≠ [] then
    let r := applyPromotion p.1 p.2 key idx overwrite
    (r.data, r.intake)
  else p

/-- The four conditional `applyPromotion` calls of `main`, in source
order (soldiers, command, congress, voices).  Returns the data and
intake objects after all selected categories are merged. -/
def applyAll (data intake : Obj) (sIdx cIdx gIdx vIdx : List Int)
    (overwrite : Bool) : Obj × Obj :=
  promoteStep (promoteStep (promoteStep (promoteStep (data, intake)
    "soldiers_day" sIdx overwrite) "men_of_command" cIdx overwrite)
    "continental_congress_committees" gIdx overwrite)
    "voices_beyond_the_line" vIdx overwrite

/-- The `/^\d{4}-\d{2}-\d{2}$/` date-shape test of `main`. -/
def isIsoShape (s : String) : Bool :=
  let cs := s.toList
  cs.length = 10 &&
  (List.range 10).all (fun i =>
    if i = 4 ∨ i = 7 then cs.getD i ' ' = '-' else (cs.getD i ' ').isDigit)

/-- The arguments of one `promote` invocation, after flag extraction:
the positional date, the four optional CSV flag values, and the three
boolean flags.  (`--next-missing` only recomputes the date and is not
modelled.) -/
structure PromoteArgs where
  iso : String
  soldiersCsv : Option String
  commandCsv : Option String
  congressCsv : Option String
  voicesCsv : Option String
  listOnly : Bool
  overwrite : Bool
  dryRun : Bool
deriving Repr

/-- `main` of promote-intake.mjs, from the date-shape check on, as a
function of the intake-file and data-file contents for the target
address (`none` = file absent): returns the process exit code and the
data-file contents after the run.  Branches, in source order: bad date
shape → exit 2; missing intake file → exit 2; missing data file →
exit 2; `--list` → exit 0, no write; empty selection → exit 2; the four
merges; primary category empty after merging → exit 1, no write;
`--dry-run` → exit 0, no write; otherwise reset the date field and
write the record, exit 0. -/
def promoteMain (a : PromoteArgs) (intakeFile dataFile : Option Obj) :
    Nat × Option Obj :=
  if ¬ isIsoShape a.iso then (2, dataFile)
  else match intakeFile, dataFile with
  | none, _ => (2, dataFile)
  | some _, none => (2, dataFile)
  | some intake0, some data0 =>
    let intake := normalizeKeys intake0
    let data := normalizeKeys data0
    if a.listOnly then (0, dataFile)
    else
      let sIdx := parseCsvIndices a.soldiersCsv
      let cIdx := parseCsvIndices a.commandCsv
      let gIdx := parseCsvIndices a.congressCsv
      let vIdx := parseCsvIndices a.voicesCsv
      if sIdx = [] ∧ cIdx = [] ∧ gIdx = [] ∧ vIdx = [] then (2, dataFile)
      else
        let merged := applyAll data intake sIdx cIdx gIdx vIdx a.overwrite
        if (getArr merged.1 "soldiers_day").length = 0 then (1, dataFile)
        else if a.dryRun then (0, dataFile)
        else (0, some (setField merged.1 "date" (.str a.iso)))

/-! ## AuditEngine (scripts/audit-data.mjs) -/

/-- One data file as the audit sees it: `none` when `JSON.parse` fails,
`some` the parsed object otherwise. -/
abbrev AuditFile := Option Obj

/-- The audit's four violation counters. -/
structure AuditCounts where
  parseFailures : Nat
  missingKeys : Nat
  missingSoldiers : Nat
  overCaps : Nat
deriving Repr

/-- Per parsed record, the audit's missing/non-array-key counter
contribution: one per category key that is absent or not an array. -/
def auditMissingKeys (j : Obj) : Nat :=
  (capKeys.filter (fun k => ¬ (hasOwn j k ∧ isArrVal (getField j k)))).length

/-- Per parsed record, the audit's over-cap counter contribution: one
per category whose (array-normalized) list exceeds its cap. -/
def auditOverCaps (j : Obj) : Nat :=
  (capKeys.filter (fun k => (getArr j k).length > capOf k)).length

/-- One iteration of the audit scan loop: a parse failure bumps that
counter and skips the record (`continue`); a parsed record adds its
missing-key count, its empty-primary indicator, and its over-cap
count. -/
def auditStep (c : AuditCounts) (f : AuditFile) : AuditCounts :=
  match f with
  | none => { c with parseFailures := c.parseFailures + 1 }
  | some j =>
    { c with
      missingKeys := c.missingKeys + auditMissingKeys j
      missingSoldiers :=
        c.missingSoldiers + (if (getArr j "soldiers_day").length = 0 then 1 else 0)
      overCaps := c.overCaps + auditOverCaps j }

/-- The scan loop of audit-data.mjs `main`: fold the four counters over
every file of the store, in order. -/
def auditScan (files : List AuditFile) : AuditCounts :=
  files.foldl auditStep ⟨0, 0, 0, 0⟩

/-- The exit code of audit-data.mjs: 1 when the sum of the four counters
is non-zero, 0 otherwise.  The audit performs no writes: its `main` is a
pure function of the store contents. -/
def auditExit (files : List AuditFile) : Nat :=
  let c := auditScan files
  if c.parseFailures + c.missingKeys + c.missingSoldiers + c.overCaps = 0 then 0 else 1

/-! ## SchemaMigrator (`migrateOne`) -/

/-- The date guard of `migrateOne`: `json.date` is kept only when it is
a truthy string, i.e. a non-empty string (`!json.date` rejects `""`,
the `typeof` check rejects non-strings). -/
def dateOkVal : Option JVal → Bool
  | some (.str s) => s ≠ ""
  | _ => false

/-- The `alreadyNew` test of `migrateOne`: every current-shape key is
present (by `hasOwnProperty`, regardless of its value) and no
legacy-shape key is present. -/
def alreadyNew (j : Obj) : Bool :=
  capKeys.all (fun k => hasOwn j k) && oldKeys.all (fun k => !(hasOwn j k))

/-- The legacy→current remapping branch of `migrateOne` (taken when
`alreadyNew` is false): read the three legacy lists (array-normalized),
set each current-shape key only when it is not already an array —
`soldiers_day` to letters_and_deeds ++ battles, `men_of_command` to
`[]`, `continental_congress_committees` to the legacy congress list,
`voices_beyond_the_line` to `[]` — then delete the legacy keys. -/
def remapLegacy (j : Obj) : Obj :=
  let oldLetters := getArr j "letters_and_deeds"
  let oldBattles := getArr j "battles"
  let oldCongress := getArr j "continental_congress"
  let j := if isArrVal (getField j "soldiers_day") then j
    else setField j "soldiers_day" (.arr (oldLetters ++ oldBattles))
  let j := if isArrVal (getField j "men_of_command") then j
    else setField j "men_of_command" (.arr [])
  let j := if isArrVal (getField j "continental_congress_committees") then j
    else setField j "continental_congress_committees" (.arr oldCongress)
  let j := if isArrVal (getField j "voices_beyond_the_line") then j
    else setField j "voices_beyond_the_line" (.arr [])
  oldKeys.foldl delField j

/-- `migrateOne` on a record that parsed, with `base` the filename minus
its `.json` extension: ensure the date field is a truthy string
(deriving it from `base` otherwise), remap the legacy shape unless the
record is `alreadyNew`, then normalize all four category keys to
arrays.  Returns the object written back to the file. -/
def migrateOne (base : String) (j : Obj) : Obj :=
  let j := if dateOkVal (getField j "date") then j else setField j "date" (.str base)
  let j := if alreadyNew j then j else remapLegacy j
  normalizeKeys j

/-! ## ScaffoldGenerator (the generate-days script) -/

/-- Proleptic-Gregorian leap-year rule, as implemented by the JS `Date`
UTC arithmetic the scaffold steps with. -/
def isLeap (y : Nat) : Bool :=
  (y % 4 = 0 && y % 100 ≠ 0) || y % 400 = 0

/-- Days in a month of the proleptic Gregorian calendar. -/
def daysInMonth (y m : Nat) : Nat :=
  if m = 2 then (if isLeap y then 29 else 28)
  else if m = 4 ∨ m = 6 ∨ m = 9 ∨ m = 11 then 30
  else 31

/-- A calendar date as a `(year, month, day)` triple. -/
abbrev Date := Nat × Nat × Nat

/-- `addDays(dt, 1)` of the scaffold: step one civil day, rolling over
month and year boundaries. -/
def nextDay : Date → Date
  | (y, m, d) =>
    if d < daysInMonth y m then (y, m, d + 1)
    else if m < 12 then (y, m + 1, 1)
    else (y + 1, 1, 1)

/-- Date comparison `dt <= end` (JS compares the UTC timestamps; on
valid civil dates that is lexicographic order on the triple). -/
def dateLe : Date → Date → Bool
  | (y, m, d), (y', m', d') =>
    y < y' || (y = y' && (m < m' || (m = m' && d ≤ d')))

/-- `toIso` of the scaffold: format a date as `YYYY-MM-DD`. -/
def toIso : Date → String
  | (y, m, d) => toString y ++ "-" ++ pad2 m ++ "-" ++ pad2 d

/-- `PROJECT_START` as a date triple. -/
def projectStart : Date := (1775, 7, 4)

/-- `PROJECT_END` as a date triple. -/
def projectEnd : Date := (1776, 7, 4)

/-- The dates visited by the scaffold's `for (let dt = start; dt <= end;
dt = addDays(dt, 1))` loop, unfolded with a fuel bound well above the
range's 367 days (`scaffold_visits_end` below checks the loop exits by
its condition, not by exhausting the fuel). -/
def dateListFrom (dt : Date) : Nat → List Date
  | 0 => []
  | fuel + 1 =>
    if dateLe dt projectEnd then dt :: dateListFrom (nextDay dt) fuel else []

/-- All dates the scaffold loop visits. -/
def scaffoldDates : List Date :=
  dateListFrom projectStart 1000

/-- `emptyDay(iso)` of the scaffold: the record it writes for a missing
address — the date field and the three legacy-shape category keys as
empty arrays. -/
def emptyDay (iso : String) : Obj :=
  [("date", .str iso),
   ("continental_congress", .arr []),
   ("battles", .arr []),
   ("letters_and_deeds", .arr [])]

/-- The data store as the scaffold sees it: one record per address. -/
abbrev Store := List (String × Obj)

/-- Read a record from the store (the parsed content of
`data/ISO.json`), `none` when the file is absent. -/
def storeGet : Store → String → Option Obj
  | [], _ => none
  | (k, r) :: st, iso => if k = iso then some r else storeGet st iso

/-- `fs.existsSync` on the store: the record file exists. -/
def storeHas (st : Store) (iso : String) : Bool :=
  (storeGet st iso).isSome

/-- The scaffold's loop body: write `emptyDay iso` only when no record
exists for `iso`, otherwise skip the address untouched. -/
def scaffoldStep (st : Store) (dt : Date) : Store :=
  if storeHas st (toIso dt) then st
  else st ++ [(toIso dt, emptyDay (toIso dt))]

/-- The whole scaffold run over an initial store. -/
def scaffoldRun (st : Store) : Store :=
  scaffoldDates.foldl scaffoldStep st

/-! ## Lemmas about the JS-object helpers -/

theorem getField_setField_self (o : Obj) (k : String) (v : JVal) :
    getField (setField o k v) k = some v := by
  induction o with
  | nil => simp [setField, getField]
  | cons p o ih =>
    obtain ⟨k', w⟩ := p
    by_cases h : k' = k
    · simp [setField, getField, h]
    · simp [setField, getField, h, ih]

theorem getField_setField_ne (o : Obj) {k k' : String} (v : JVal) (h : k ≠ k') :
    getField (setField o k v) k' = getField o k' := by
  induction o with
  | nil => simp [setField, getField, h]
  | cons p o ih =>
    obtain ⟨k'', w⟩ := p
    by_cases h2 : k'' = k
    · subst h2; simp [setField, getField, h]
    · simp [setField, getField, h2, ih]

theorem hasOwn_setField_self (o : Obj) (k : String) (v : JVal) :
    hasOwn (setField o k v) k = true := by
  induction o with
  | nil => simp [setField, hasOwn]
  | cons p o ih =>
    obtain ⟨k', w⟩ := p
    by_cases h : k' = k
    · simp [setField, hasOwn, h]
    · simp [setField, hasOwn, h, ih]

theorem hasOwn_setField_ne (o : Obj) {k k' : String} (v : JVal) (h : k ≠ k') :
    hasOwn (setField o k v) k' = hasOwn o k' := by
  induction o with
  | nil => simp [setField, hasOwn, h]
  | cons p o ih =>
    obtain ⟨k'', w⟩ := p
    by_cases h2 : k'' = k
    · subst h2; simp [setField, hasOwn, h]
    · simp [setField, hasOwn, h2, ih]

theorem hasOwn_of_getField {o : Obj} {k : String} {v : JVal}
    (h : getField o k = some v) : hasOwn o k = true := by
  induction o with
  | nil => simp [getField] at h
  | cons p o ih =>
    obtain ⟨k', w⟩ := p
    by_cases h2 : k' = k
    · simp [hasOwn, h2]
    · simp [getField, h2] at h
      simp [hasOwn, h2, ih h]

theorem getField_eq_none_of_not_hasOwn {o : Obj} {k : String}
    (h : hasOwn o k = false) : getField o k = none := by
  induction o with
  | nil => simp [getField]
  | cons p o ih =>
    obtain ⟨k', w⟩ := p
    simp [hasOwn] at h
    simp [getField, h.1, ih h.2]

theorem setField_of_getField {o : Obj} {k : String} {v : JVal}
    (h : getField o k = some v) : setField o k v = o := by
  induction o with
  | nil => simp [getField] at h
  | cons p o ih =>
    obtain ⟨k', w⟩ := p
    by_cases h2 : k' = k
    · subst h2
      simp [getField] at h
      simp [setField, h]
    · simp [getField, h2] at h
      simp [setField, h2, ih h]

theorem getField_delField_ne (o : Obj) {k k' : String} (h : k ≠ k') :
    getField (delField o k) k' = getField o k' := by
  induction o with
  | nil => simp [delField]
  | cons p o ih =>
    obtain ⟨k'', w⟩ := p
    by_cases h2 : k'' = k
    · have h3 : k'' ≠ k' := by rw [h2]; exact h
      simp [delField, getField, h2, h3, h, ih]
    · simp [delField, getField, h2, ih]

theorem hasOwn_delField_self (o : Obj) (k : String) :
    hasOwn (delField o k) k = false := by
  induction o with
  | nil => simp [delField, hasOwn]
  | cons p o ih =>
    obtain ⟨k', w⟩ := p
    by_cases h : k' = k
    · simp [delField, h, ih]
    · simp [delField, hasOwn, h, ih]

theorem hasOwn_delField_ne (o : Obj) {k k' : String} (h : k ≠ k') :
    hasOwn (delField o k) k' = hasOwn o k' := by
  induction o with
  | nil => simp [delField]
  | cons p o ih =>
    obtain ⟨k'', w⟩ := p
    by_cases h2 : k'' = k
    · have h3 : k'' ≠ k' := by rw [h2]; exact h
      simp [delField, hasOwn, h2, h3, h, ih]
    · simp [delField, hasOwn, h2, ih]

theorem delField_of_not_hasOwn {o : Obj} {k : String}
    (h : hasOwn o k = false) : delField o k = o := by
  induction o with
  | nil => simp [delField]
  | cons p o ih =>
    obtain ⟨k', w⟩ := p
    simp [hasOwn] at h
    simp [delField, h.1, ih h.2]

theorem getArr_eq_nil_of_not_isArr {o : Obj} {k : String}
    (h : isArrVal (getField o k) = false) : getArr o k = [] := by
  unfold getArr
  rcases hf : getField o k with _ | v
  · rfl
  · cases v <;> simp_all [isArrVal]

theorem getArr_of_getField {o : Obj} {k : String} {xs : List JVal}
    (h : getField o k = some (.arr xs)) : getArr o k = xs := by
  unfold getArr; rw [h]

theorem ensureArray_of_isArr {o : Obj} {k : String}
    (h : isArrVal (getField o k) = true) : ensureArray o k = o := by
  unfold ensureArray; rw [h]; rfl

theorem getField_ensureArray_ne (o : Obj) {k k' : String} (h : k ≠ k') :
    getField (ensureArray o k) k' = getField o k' := by
  unfold ensureArray
  by_cases h2 : isArrVal (getField o k) = true
  · rw [h2]; rfl
  · simp only [h2]
    exact getField_setField_ne o _ h

theorem getArr_ensureArray_ne (o : Obj) {k k' : String} (h : k ≠ k') :
    getArr (ensureArray o k) k' = getArr o k' := by
  unfold getArr; rw [getField_ensureArray_ne o h]

theorem getArr_ensureArray_self (o : Obj) (k : String) :
    getArr (ensureArray o k) k = getArr o k := by
  unfold ensureArray
  by_cases h2 : isArrVal (getField o k) = true
  · rw [h2]; rfl
  · simp only [h2, Bool.false_eq_true, if_false]
    rw [getArr_of_getField (getField_setField_self o k _)]
    rw [getArr_eq_nil_of_not_isArr (Bool.not_eq_true _ ▸ h2)]

theorem isArrVal_ensureArray_self (o : Obj) (k : String) :
    isArrVal (getField (ensureArray o k) k) = true := by
  unfold ensureArray
  by_cases h2 : isArrVal (getField o k) = true
  · rw [h2]; exact h2
  · simp only [h2, Bool.false_eq_true, if_false]
    rw [getField_setField_self]; rfl

theorem hasOwn_ensureArray_self (o : Obj) (k : String) :
    hasOwn (ensureArray o k) k = true := by
  unfold ensureArray
  by_cases h2 : isArrVal (getField o k) = true
  · rw [h2]
    rcases hf : getField o k with _ | v
    · rw [hf] at h2; simp [isArrVal] at h2
    · exact hasOwn_of_getField hf
  · simp only [h2, Bool.false_eq_true, if_false]
    exact hasOwn_setField_self o k _

theorem hasOwn_ensureArray_ne (o : Obj) {k k' : String} (h : k ≠ k') :
    hasOwn (ensureArray o k) k' = hasOwn o k' := by
  unfold ensureArray
  by_cases h2 : isArrVal (getField o k) = true
  · rw [h2]; rfl
  · simp only [h2, Bool.false_eq_true, if_false]
    exact hasOwn_setField_ne o _ h

theorem getField_ensureArray_of_isArr {o : Obj} {k : String} (k' : String)
    (h : isArrVal (getField o k) = true) :
    getField (ensureArray o k') k = getField o k := by
  by_cases h2 : k' = k
  · subst h2; rw [ensureArray_of_isArr (by exact h)]
  · exact getField_ensureArray_ne o h2

theorem getField_normalizeKeys_of_isArr {o : Obj} {k : String}
    (h : isArrVal (getField o k) = true) :
    getField (normalizeKeys o) k = getField o k := by
  have hn : normalizeKeys o =
      ensureArray (ensureArray (ensureArray (ensureArray o "soldiers_day")
        "men_of_command") "continental_congress_committees")
        "voices_beyond_the_line" := rfl
  rw [hn]
  have e1 := getField_ensureArray_of_isArr (o := o) "soldiers_day" h
  have h1 : isArrVal (getField (ensureArray o "soldiers_day") k) = true := by
    rw [e1]; exact h
  have e2 := getField_ensureArray_of_isArr "men_of_command" h1
  have h2 : isArrVal (getField (ensureArray (ensureArray o "soldiers_day")
      "men_of_command") k) = true := by rw [e2]; exact h1
  have e3 := getField_ensureArray_of_isArr "continental_congress_committees" h2
  have h3 : isArrVal (getField (ensureArray (ensureArray (ensureArray o
      "soldiers_day") "men_of_command") "continental_congress_committees") k)
      = true := by rw [e3]; exact h2
  have e4 := getField_ensureArray_of_isArr "voices_beyond_the_line" h3
  rw [e4, e3, e2, e1]

theorem getField_normalizeKeys_notMem {o : Obj} {k : String}
    (h : k ∉ capKeys) : getField (normalizeKeys o) k = getField o k := by
  have h1 : k ≠ "soldiers_day" := fun hc => h (by simp [capKeys, hc])
  have h2 : k ≠ "men_of_command" := fun hc => h (by simp [capKeys, hc])
  have h3 : k ≠ "continental_congress_committees" := fun hc => h (by simp [capKeys, hc])
  have h4 : k ≠ "voices_beyond_the_line" := fun hc => h (by simp [capKeys, hc])
  have hn : normalizeKeys o =
      ensureArray (ensureArray (ensureArray (ensureArray o "soldiers_day")
        "men_of_command") "continental_congress_committees")
        "voices_beyond_the_line" := rfl
  rw [hn, getField_ensureArray_ne _ (fun hc => h4 hc.symm),
    getField_ensureArray_ne _ (fun hc => h3 hc.symm),
    getField_ensureArray_ne _ (fun hc => h2 hc.symm),
    getField_ensureArray_ne _ (fun hc => h1 hc.symm)]

theorem hasOwn_normalizeKeys_notMem {o : Obj} {k : String}
    (h : k ∉ capKeys) : hasOwn (normalizeKeys o) k = hasOwn o k := by
  have h1 : k ≠ "soldiers_day" := fun hc => h (by simp [capKeys, hc])
  have h2 : k ≠ "men_of_command" := fun hc => h (by simp [capKeys, hc])
  have h3 : k ≠ "continental_congress_committees" := fun hc => h (by simp [capKeys, hc])
  have h4 : k ≠ "voices_beyond_the_line" := fun hc => h (by simp [capKeys, hc])
  have hn : normalizeKeys o =
      ensureArray (ensureArray (ensureArray (ensureArray o "soldiers_day")
        "men_of_command") "continental_congress_committees")
        "voices_beyond_the_line" := rfl
  rw [hn, hasOwn_ensureArray_ne _ (fun hc => h4 hc.symm),
    hasOwn_ensureArray_ne _ (fun hc => h3 hc.symm),
    hasOwn_ensureArray_ne _ (fun hc => h2 hc.symm),
    hasOwn_ensureArray_ne _ (fun hc => h1 hc.symm)]

theorem getArr_normalizeKeys (o : Obj) (k : String) :
    getArr (normalizeKeys o) k = getArr o k := by
  have step : ∀ (o' : Obj) (k' : String), getArr (ensureArray o' k') k = getArr o' k := by
    intro o' k'
    by_cases h : k' = k
    · subst h; exact getArr_ensureArray_self o' k'
    · exact getArr_ensureArray_ne o' h
  have hn : normalizeKeys o =
      ensureArray (ensureArray (ensureArray (ensureArray o "soldiers_day")
        "men_of_command") "continental_congress_committees")
        "voices_beyond_the_line" := rfl
  rw [hn, step, step, step, step]

theorem isArrVal_normalizeKeys_mem {o : Obj} {k : String}
    (h : k ∈ capKeys) : isArrVal (getField (normalizeKeys o) k) = true := by
  have hn : normalizeKeys o =
      ensureArray (ensureArray (ensureArray (ensureArray o "soldiers_day")
        "men_of_command") "continental_congress_committees")
        "voices_beyond_the_line" := rfl
  have keep : ∀ (o' : Obj) (k' : String), isArrVal (getField o' k) = true →
      isArrVal (getField (ensureArray o' k') k) = true := by
    intro o' k' hk
    rw [getField_ensureArray_of_isArr k' hk]; exact hk
  fin_cases h <;> rw [hn]
  · exact keep _ _ (keep _ _ (keep _ _ (isArrVal_ensureArray_self o _)))
  · exact keep _ _ (keep _ _ (isArrVal_ensureArray_self _ _))
  · exact keep _ _ (isArrVal_ensureArray_self _ _)
  · exact isArrVal_ensureArray_self _ _

theorem hasOwn_normalizeKeys_mem {o : Obj} {k : String}
    (h : k ∈ capKeys) : hasOwn (normalizeKeys o) k = true := by
  have hk := isArrVal_normalizeKeys_mem (o := o) h
  rcases hf : getField (normalizeKeys o) k with _ | v
  · rw [hf] at hk; simp [isArrVal] at hk
  · exact hasOwn_of_getField hf

theorem normalizeKeys_of_all_isArr {o : Obj}
    (h : ∀ k ∈ capKeys, isArrVal (getField o k) = true) :
    normalizeKeys o = o := by
  have hn : normalizeKeys o =
      ensureArray (ensureArray (ensureArray (ensureArray o "soldiers_day")
        "men_of_command") "continental_congress_committees")
        "voices_beyond_the_line" := rfl
  rw [hn, ensureArray_of_isArr (h "soldiers_day" (by simp [capKeys])),
    ensureArray_of_isArr (h "men_of_command" (by simp [capKeys])),
    ensureArray_of_isArr (h "continental_congress_committees" (by simp [capKeys])),
    ensureArray_of_isArr (h "voices_beyond_the_line" (by simp [capKeys]))]

/-! ## Claim C6: the wall-clock → address mapping -/

/-- C6: `mapWallClockToAddress` is a pure function of (month, day): for
every wall-clock (m, d) it returns `{label-year}-{mm}-{dd}` where the
label-year is 1775 when (m, d) is on or after the (month 7, day 4)
cutover and 1776 before it; in particular (7, 3) ↦ `1776-07-03`,
(7, 4) ↦ `1775-07-04`, and (12, 25) ↦ `1775-12-25`. -/
theorem todayMappedIso_cutover :
    (∀ m d : Nat, todayMappedIso m d =
        (if onOrAfterCutover m d then "1775" else "1776") ++ "-" ++
          pad2 m ++ "-" ++ pad2 d)
    ∧ todayMappedIso 7 3 = "1776-07-03"
    ∧ todayMappedIso 7 4 = "1775-07-04"
    ∧ todayMappedIso 12 25 = "1775-12-25" := by
  refine ⟨fun m d => ?_, by decide, by decide, by decide⟩
  have h75 : toString (1775 : Nat) = "1775" := rfl
  have h76 : toString (1776 : Nat) = "1776" := rfl
  by_cases h : onOrAfterCutover m d
  · have hb : (decide (m > 7) || (decide (m = 7) && decide (d ≥ 4))) = true := by
      simp only [Bool.or_eq_true, Bool.and_eq_true, decide_eq_true_eq]
      exact h
    simp [todayMappedIso, hb, if_pos h, h75]
  · have hb : (decide (m > 7) || (decide (m = 7) && decide (d ≥ 4))) = false := by
      simp only [Bool.or_eq_false_iff, Bool.and_eq_false_iff,
        decide_eq_false_iff_not]
      unfold onOrAfterCutover at h
      refine ⟨fun hgt => h (Or.inl hgt), ?_⟩
      by_cases hm : m = 7
      · exact Or.inr (fun hd => h (Or.inr ⟨hm, hd⟩))
      · exact Or.inl hm
    simp [todayMappedIso, hb, if_neg h, h76]

/-! ## Claim C2: the per-category promotion formula -/

/-- Modelled from the spec's wording of steps 1–2 of the promotion
algorithm: keep the supplied 1-based positions that lie inside
`[1, length]`, in the order supplied, each replaced by the candidate at
that position. -/
def specResolve (cand : List JVal) (indices : List Int) : List JVal :=
  indices.filterMap (fun n =>
    if 1 ≤ n ∧ n ≤ (cand.length : Int) then cand.get? (n - 1).toNat else none)

theorem resolvePicks_eq_specResolve (cand : List JVal) (indices : List Int) :
    resolvePicks cand indices = specResolve cand indices := by
  unfold resolvePicks specResolve
  congr 1
  funext n
  by_cases h : 1 ≤ n ∧ n ≤ (cand.length : Int)
  · rw [if_pos h, if_neg (by omega)]
  · rw [if_neg h, if_pos (by omega)]

/-- C2: for every promoted category, the final category value is
exactly: resolve the supplied 1-based positions against the intake
candidate list, silently dropping positions outside `[1, length]`, in
supplied order; prepend the base (`[]` under overwrite mode, the
record's current sequence under append mode); and keep only the first
`cap` elements of the concatenation. -/
theorem applyPromotion_formula (data intake : Obj) (key : String)
    (indices : List Int) (ov : Bool) (base cand : List JVal)
    (hb : getField data key = some (.arr base))
    (hc : getField intake key = some (.arr cand)) :
    getField (applyPromotion data intake key indices ov).data key =
      some (.arr (((if ov then [] else base) ++ specResolve cand indices).take
        (capOf key))) := by
  have hdb : ensureArray data key = data :=
    ensureArray_of_isArr (by rw [hb]; rfl)
  have hic : ensureArray intake key = intake :=
    ensureArray_of_isArr (by rw [hc]; rfl)
  show getField (setField (ensureArray data key) key _) key = _
  rw [hdb, hic, getField_setField_self]
  rw [getArr_of_getField hb, getArr_of_getField hc,
    resolvePicks_eq_specResolve]

/-- Witness for `applyPromotion_formula`: a record with one existing
primary entry, two candidates, selection "2 then 1" in append mode;
position resolution keeps both, the base keeps priority, and the cap
of 3 drops nothing. -/
theorem applyPromotion_formula_witness :
    getField (applyPromotion
        [("soldiers_day", JVal.arr [JVal.str "old"])]
        [("soldiers_day", JVal.arr [JVal.str "a", JVal.str "b"])]
        "soldiers_day" [2, 1, 5] false).data "soldiers_day" =
      some (.arr ((([] : List JVal) ++ [JVal.str "old"] ++
        specResolve [JVal.str "a", JVal.str "b"] [2, 1, 5]).take 3)) := by
  have h := applyPromotion_formula
    [("soldiers_day", JVal.arr [JVal.str "old"])]
    [("soldiers_day", JVal.arr [JVal.str "a", JVal.str "b"])]
    "soldiers_day" [2, 1, 5] false [JVal.str "old"]
    [JVal.str "a", JVal.str "b"] rfl rfl
  simpa using h

/-! ## Claim C3: category caps under promotion -/

theorem getArr_applyPromotion_self (data intake : Obj) (key : String)
    (indices : List Int) (ov : Bool) :
    getArr (applyPromotion data intake key indices ov).data key =
      ((if ov then [] else getArr data key) ++
        resolvePicks (getArr intake key) indices).take (capOf key) := by
  show getArr (setField (ensureArray data key) key _) key = _
  rw [getArr_of_getField (getField_setField_self _ _ _),
    getArr_ensureArray_self, getArr_ensureArray_self]

theorem getArr_applyPromotion_ne (data intake : Obj) {key k : String}
    (indices : List Int) (ov : Bool) (h : key ≠ k) :
    getArr (applyPromotion data intake key indices ov).data k =
      getArr data k := by
  show getArr (setField (ensureArray data key) key _) k = _
  unfold getArr
  rw [getField_setField_ne _ _ h, getField_ensureArray_ne _ h]

theorem applyPromotion_le_cap (data intake : Obj) (key : String)
    (indices : List Int) (ov : Bool) :
    (getArr (applyPromotion data intake key indices ov).data key).length ≤
      capOf key := by
  rw [getArr_applyPromotion_self]
  simp [List.length_take]

/-- The per-record cap invariant of the spec: every category list is at
most its cap long. -/
def withinCaps (o : Obj) : Prop :=
  ∀ k ∈ capKeys, (getArr o k).length ≤ capOf k

instance (o : Obj) : Decidable (withinCaps o) := by
  unfold withinCaps; infer_instance

/-- The cap invariant lifted to an optional data file. -/
def storeWithinCaps : Option Obj → Prop
  | none => True
  | some o => withinCaps o

instance : (f : Option Obj) → Decidable (storeWithinCaps f)
  | none => .isTrue trivial
  | some o => inferInstanceAs (Decidable (withinCaps o))

theorem withinCaps_promoteStep {p : Obj × Obj} (key : String)
    (idx : List Int) (ov : Bool) (h : withinCaps p.1) :
    withinCaps (promoteStep p key idx ov).1 := by
  unfold promoteStep
  by_cases hi : idx ≠ []
  · rw [if_pos hi]
    intro k hk
    by_cases hkey : key = k
    · subst hkey; exact applyPromotion_le_cap _ _ _ _ _
    · show (getArr (applyPromotion p.1 p.2 key idx ov).data k).length ≤ _
      rw [getArr_applyPromotion_ne _ _ _ _ hkey]
      exact h k hk
  · rw [if_neg hi]; exact h

theorem withinCaps_applyAll (data intake : Obj) (s c g v : List Int)
    (ov : Bool) (h : withinCaps data) :
    withinCaps (applyAll data intake s c g v ov).1 := by
  unfold applyAll
  exact withinCaps_promoteStep _ _ _ (withinCaps_promoteStep _ _ _
    (withinCaps_promoteStep _ _ _ (withinCaps_promoteStep _ _ _ h)))

theorem getArr_setField_ne (o : Obj) {k k' : String} (v : JVal)
    (h : k ≠ k') : getArr (setField o k v) k' = getArr o k' := by
  unfold getArr; rw [getField_setField_ne o v h]

theorem withinCaps_normalizeKeys {o : Obj} (h : withinCaps o) :
    withinCaps (normalizeKeys o) := by
  intro k hk
  rw [getArr_normalizeKeys]
  exact h k hk

/-- The data file written by a successful `promoteMain` run and the exit
branches, packaged for reuse: the run either leaves the data file
untouched or writes `setField (applyAll …).1 "date"`. -/
theorem promoteMain_cases (a : PromoteArgs) (intakeFile dataFile : Option Obj) :
    (promoteMain a intakeFile dataFile).2 = dataFile ∨
    (∃ intake0 data0, intakeFile = some intake0 ∧ dataFile = some data0 ∧
      (getArr (applyAll (normalizeKeys data0) (normalizeKeys intake0)
          (parseCsvIndices a.soldiersCsv) (parseCsvIndices a.commandCsv)
          (parseCsvIndices a.congressCsv) (parseCsvIndices a.voicesCsv)
          a.overwrite).1 "soldiers_day").length ≠ 0 ∧
      (promoteMain a intakeFile dataFile).2 =
        some (setField (applyAll (normalizeKeys data0) (normalizeKeys intake0)
          (parseCsvIndices a.soldiersCsv) (parseCsvIndices a.commandCsv)
          (parseCsvIndices a.congressCsv) (parseCsvIndices a.voicesCsv)
          a.overwrite).1 "date" (.str a.iso))) := by
  unfold promoteMain
  by_cases h1 : ¬ isIsoShape a.iso
  · rw [if_pos h1]; exact Or.inl rfl
  rw [if_neg h1]
  rcases intakeFile with _ | intake0
  · exact Or.inl rfl
  rcases dataFile with _ | data0
  · exact Or.inl rfl
  dsimp only
  by_cases h2 : a.listOnly = true
  · rw [if_pos h2]; exact Or.inl rfl
  rw [if_neg h2]
  by_cases h3 : parseCsvIndices a.soldiersCsv = [] ∧
      parseCsvIndices a.commandCsv = [] ∧ parseCsvIndices a.congressCsv = [] ∧
      parseCsvIndices a.voicesCsv = []
  · rw [if_pos h3]; exact Or.inl rfl
  rw [if_neg h3]
  by_cases h4 : (getArr (applyAll (normalizeKeys data0) (normalizeKeys intake0)
      (parseCsvIndices a.soldiersCsv) (parseCsvIndices a.commandCsv)
      (parseCsvIndices a.congressCsv) (parseCsvIndices a.voicesCsv)
      a.overwrite).1 "soldiers_day").length = 0
  · rw [if_pos h4]; exact Or.inl rfl
  rw [if_neg h4]
  by_cases h5 : a.dryRun = true
  · rw [if_pos h5]; exact Or.inl rfl
  · rw [if_neg h5]
    exact Or.inr ⟨intake0, data0, rfl, rfl, h4, rfl⟩

theorem withinCaps_setField_date {o : Obj} (v : JVal) (h : withinCaps o) :
    withinCaps (setField o "date" v) := by
  intro k hk
  have hne : "date" ≠ k := by fin_cases hk <;> decide
  rw [getArr_setField_ne o v hne]
  exact h k hk

theorem storeWithinCaps_promoteMain (a : PromoteArgs)
    (intakeFile : Option Obj) {df : Option Obj} (h : storeWithinCaps df) :
    storeWithinCaps (promoteMain a intakeFile df).2 := by
  rcases promoteMain_cases a intakeFile df with hc | ⟨i0, d0, hi, hd, _, hc⟩
  · rw [hc]; exact h
  · rw [hc]
    subst hd
    have h0 : withinCaps d0 := h
    exact withinCaps_setField_date _ (withinCaps_applyAll _ _ _ _ _ _ _
      (withinCaps_normalizeKeys h0))

/-- A sequence of promote invocations, each with its own arguments and
intake file, threaded through the same address's data file. -/
def runPromotions (invs : List (PromoteArgs × Option Obj))
    (dataFile : Option Obj) : Option Obj :=
  invs.foldl (fun df inv => (promoteMain inv.1 inv.2 df).2) dataFile

theorem storeWithinCaps_runPromotions :
    ∀ (invs : List (PromoteArgs × Option Obj)) (df : Option Obj),
      storeWithinCaps df → storeWithinCaps (runPromotions invs df)
  | [], _, h => h
  | inv :: invs, _, h =>
    storeWithinCaps_runPromotions invs _ (storeWithinCaps_promoteMain inv.1 inv.2 h)

/-- A legacy-shape record with two letters_and_deeds entries and two
battles entries; migration concatenates them, uncapped, into a
four-entry primary category. -/
def overCapLegacyRec : Obj :=
  [("date", .str "1775-08-01"),
   ("continental_congress", .arr []),
   ("battles", .arr [.str "b1", .str "b2"]),
   ("letters_and_deeds", .arr [.str "l1", .str "l2"])]

/-- The migrated form of `overCapLegacyRec`: its primary category holds
4 entries, over the cap of 3. -/
def overCapData : Obj := migrateOne "1775-08-01" overCapLegacyRec

/-- An intake pool offering one men_of_command candidate. -/
def overCapIntake : Obj :=
  [("date", .str "1775-08-01"), ("men_of_command", .arr [.str "m1"])]

/-- A promote invocation in append mode that touches only
men_of_command. -/
def overCapArgs : PromoteArgs :=
  { iso := "1775-08-01", soldiersCsv := none, commandCsv := some "1",
    congressCsv := none, voicesCsv := none,
    listOnly := false, overwrite := false, dryRun := false }

/-- Counterexample to C3 as stated: a promotion sequence (one append
invocation touching only men_of_command) applied to a record the
system's own migrator produced leaves the untouched primary category at
length 4 > cap 3 in the resulting record — the invocation succeeds
(exit 0) and writes, yet `len(category) ≤ cap(category)` does not hold
afterward for every category. -/
theorem promote_append_overcap_cex :
    (promoteMain overCapArgs (some overCapIntake) (some overCapData)).1 = 0 ∧
    capOf "soldiers_day" <
      (getArr ((promoteMain overCapArgs (some overCapIntake)
        (some overCapData)).2.getD []) "soldiers_day").length := by
  constructor
  · rfl
  · decide

/-- C3 (amended): promotion never pushes a category it touches past its
cap — every promoted category's final value has length at most
`cap(category)` (3 for primary, 2 per secondary) — and hence, for any
sequence of promote invocations in append mode starting from a data
file whose categories are all within caps, every category of the
resulting data file is still within caps.  (The original universal
claim fails only for records that already exceed a cap in a category
the promotions do not touch, as `promote_append_overcap_cex` shows.) -/
theorem promote_append_caps :
    (∀ (data intake : Obj) (key : String) (indices : List Int) (ov : Bool),
      (getArr (applyPromotion data intake key indices ov).data key).length ≤
        capOf key)
    ∧ (∀ (invs : List (PromoteArgs × Option Obj)) (dataFile : Option Obj),
        (∀ p ∈ invs, (Prod.fst p).overwrite = false) →
        storeWithinCaps dataFile →
        storeWithinCaps (runPromotions invs dataFile)) :=
  ⟨fun data intake key indices ov => applyPromotion_le_cap data intake key indices ov,
   fun invs dataFile _ h => storeWithinCaps_runPromotions invs dataFile h⟩

/-- Witness for `promote_append_caps`: the single append invocation
`overCapArgs` applied to an empty current-shape record keeps every
category within its cap. -/
theorem promote_append_caps_witness :
    storeWithinCaps (runPromotions [(overCapArgs, some overCapIntake)]
      (some [("date", JVal.str "1775-08-01"),
        ("soldiers_day", JVal.arr [JVal.str "s1"]),
        ("men_of_command", JVal.arr []),
        ("continental_congress_committees", JVal.arr []),
        ("voices_beyond_the_line", JVal.arr [])])) :=
  promote_append_caps.2 [(overCapArgs, some overCapIntake)]
    (some [("date", JVal.str "1775-08-01"),
      ("soldiers_day", JVal.arr [JVal.str "s1"]),
      ("men_of_command", JVal.arr []),
      ("continental_congress_committees", JVal.arr []),
      ("voices_beyond_the_line", JVal.arr [])])
    (by intro p hp; fin_cases hp; rfl)
    (by decide)

/-! ## Claim C7: the audit scan -/

/-- The four audit conditions on one data file, as the claim lists
them: (a) it parses; (b) all four category fields are present and are
arrays; (c) the primary category is non-empty; (d) no category exceeds
its cap. -/
def auditOk (f : AuditFile) : Prop :=
  match f with
  | none => False
  | some j =>
    (∀ k ∈ capKeys, hasOwn j k = true ∧ isArrVal (getField j k) = true) ∧
    1 ≤ (getArr j "soldiers_day").length ∧
    (∀ k ∈ capKeys, (getArr j k).length ≤ capOf k)

theorem auditFold_parse :
    ∀ (files : List AuditFile) (c : AuditCounts),
      (files.foldl auditStep c).parseFailures =
        c.parseFailures + (files.filter (fun f => f.isNone)).length := by
  intro files
  induction files with
  | nil => intro c; simp
  | cons f files ih =>
    intro c
    cases f with
    | none => simp [auditStep, ih]; omega
    | some j => simp [auditStep, ih]

theorem auditFold_missingKeys :
    ∀ (files : List AuditFile) (c : AuditCounts),
      (files.foldl auditStep c).missingKeys =
        c.missingKeys + ((files.filterMap id).map auditMissingKeys).sum := by
  intro files
  induction files with
  | nil => intro c; simp
  | cons f files ih =>
    intro c
    cases f with
    | none => simp [auditStep, ih]
    | some j => simp [auditStep, ih]; omega

theorem auditFold_missingSoldiers :
    ∀ (files : List AuditFile) (c : AuditCounts),
      (files.foldl auditStep c).missingSoldiers =
        c.missingSoldiers + ((files.filterMap id).filter
          (fun j => (getArr j "soldiers_day").length = 0)).length := by
  intro files
  induction files with
  | nil => intro c; simp
  | cons f files ih =>
    intro c
    cases f with
    | none => simp [auditStep, ih]
    | some j =>
      by_cases hz : (getArr j "soldiers_day").length = 0
      · simp [auditStep, ih, hz]; omega
      · simp [auditStep, ih, hz]

theorem auditFold_overCaps :
    ∀ (files : List AuditFile) (c : AuditCounts),
      (files.foldl auditStep c).overCaps =
        c.overCaps + ((files.filterMap id).map auditOverCaps).sum := by
  intro files
  induction files with
  | nil => intro c; simp
  | cons f files ih =>
    intro c
    cases f with
    | none => simp [auditStep, ih]
    | some j => simp [auditStep, ih]; omega

theorem auditMissingKeys_eq_zero {j : Obj} :
    auditMissingKeys j = 0 ↔
      ∀ k ∈ capKeys, hasOwn j k = true ∧ isArrVal (getField j k) = true := by
  unfold auditMissingKeys
  rw [List.length_eq_zero, List.filter_eq_nil_iff]
  simp

theorem auditOverCaps_eq_zero {j : Obj} :
    auditOverCaps j = 0 ↔ ∀ k ∈ capKeys, (getArr j k).length ≤ capOf k := by
  unfold auditOverCaps
  rw [List.length_eq_zero, List.filter_eq_nil_iff]
  simp [Nat.not_lt]

/-- C7: the audit scans every record of the store and checks exactly
the four conditions — parseability, all four category fields present as
sequences, primary category non-empty, every category within its cap —
keeping one counter per violation class (parse failures; missing or
non-array keys, one per key; empty-primary records; over-cap
categories, one per category); its exit code is always 0 or 1, and it
is 0 exactly when every record of the store satisfies all four
conditions.  The scan is a pure function of the store contents: it
performs no writes. -/
theorem audit_checks (files : List AuditFile) :
    (auditExit files = 0 ∨ auditExit files = 1)
    ∧ (auditScan files).parseFailures = (files.filter (fun f => f.isNone)).length
    ∧ (auditScan files).missingKeys = ((files.filterMap id).map auditMissingKeys).sum
    ∧ (auditScan files).missingSoldiers = ((files.filterMap id).filter
        (fun j => (getArr j "soldiers_day").length = 0)).length
    ∧ (auditScan files).overCaps = ((files.filterMap id).map auditOverCaps).sum
    ∧ (auditExit files = 0 ↔ ∀ f ∈ files, auditOk f) := by
  have hp : (auditScan files).parseFailures =
      (files.filter (fun f => f.isNone)).length := by
    simpa using auditFold_parse files ⟨0, 0, 0, 0⟩
  have hmk : (auditScan files).missingKeys =
      ((files.filterMap id).map auditMissingKeys).sum := by
    simpa using auditFold_missingKeys files ⟨0, 0, 0, 0⟩
  have hms : (auditScan files).missingSoldiers =
      ((files.filterMap id).filter
        (fun j => (getArr j "soldiers_day").length = 0)).length := by
    simpa using auditFold_missingSoldiers files ⟨0, 0, 0, 0⟩
  have hoc : (auditScan files).overCaps =
      ((files.filterMap id).map auditOverCaps).sum := by
    simpa using auditFold_overCaps files ⟨0, 0, 0, 0⟩
  have hexit01 : auditExit files = 0 ∨ auditExit files = 1 := by
    unfold auditExit
    by_cases h : (auditScan files).parseFailures + (auditScan files).missingKeys +
        (auditScan files).missingSoldiers + (auditScan files).overCaps = 0
    · exact Or.inl (by rw [if_pos h])
    · exact Or.inr (by rw [if_neg h])
  refine ⟨hexit01, hp, hmk, hms, hoc, ?_⟩
  have hiff : auditExit files = 0 ↔
      (auditScan files).parseFailures + (auditScan files).missingKeys +
        (auditScan files).missingSoldiers + (auditScan files).overCaps = 0 := by
    unfold auditExit
    by_cases h : (auditScan files).parseFailures + (auditScan files).missingKeys +
        (auditScan files).missingSoldiers + (auditScan files).overCaps = 0
    · simp [h]
    · simp [h]
  rw [hiff, hp, hmk, hms, hoc]
  simp only [Nat.add_eq_zero]
  constructor
  · rintro ⟨⟨⟨hzp, hzmk⟩, hzms⟩, hzoc⟩
    intro f hf
    rcases f with _ | j
    · exfalso
      have hmem : (none : AuditFile) ∈ files.filter (fun f => f.isNone) :=
        List.mem_filter.2 ⟨hf, by simp⟩
      rw [List.length_eq_zero] at hzp
      rw [hzp] at hmem
      exact absurd hmem (List.not_mem_nil _)
    · have hj : j ∈ files.filterMap id :=
        List.mem_filterMap.2 ⟨some j, hf, rfl⟩
      have h1 : auditMissingKeys j = 0 :=
        List.sum_eq_zero_iff.1 hzmk _ (List.mem_map.2 ⟨j, hj, rfl⟩)
      have h3 : auditOverCaps j = 0 :=
        List.sum_eq_zero_iff.1 hzoc _ (List.mem_map.2 ⟨j, hj, rfl⟩)
      have h2 : ¬ (getArr j "soldiers_day").length = 0 := by
        intro hz
        have hmem : j ∈ (files.filterMap id).filter
            (fun j => (getArr j "soldiers_day").length = 0) :=
          List.mem_filter.2 ⟨hj, by simp [hz]⟩
        rw [List.length_eq_zero] at hzms
        rw [hzms] at hmem
        exact absurd hmem (List.not_mem_nil _)
      exact ⟨auditMissingKeys_eq_zero.1 h1, by omega,
        auditOverCaps_eq_zero.1 h3⟩
  · intro hok
    refine ⟨⟨⟨?_, ?_⟩, ?_⟩, ?_⟩
    · rw [List.length_eq_zero, List.filter_eq_nil_iff]
      intro f hf hnone
      have hthis := hok f hf
      rw [Option.isNone_iff_eq_none.1 hnone] at hthis
      exact hthis
    · rw [List.sum_eq_zero_iff]
      intro x hx
      obtain ⟨j, hj, hjx⟩ := List.mem_map.1 hx
      obtain ⟨g, hg, hgj⟩ := List.mem_filterMap.1 hj
      have hthis := hok g hg
      rw [show g = some j by simpa using hgj] at hthis
      subst hjx
      exact auditMissingKeys_eq_zero.2 hthis.1
    · rw [List.length_eq_zero, List.filter_eq_nil_iff]
      intro j hj hz
      obtain ⟨g, hg, hgj⟩ := List.mem_filterMap.1 hj
      have hthis := hok g hg
      rw [show g = some j by simpa using hgj] at hthis
      have hlen := hthis.2.1
      simp only [decide_eq_true_eq] at hz
      omega
    · rw [List.sum_eq_zero_iff]
      intro x hx
      obtain ⟨j, hj, hjx⟩ := List.mem_map.1 hx
      obtain ⟨g, hg, hgj⟩ := List.mem_filterMap.1 hj
      have hthis := hok g hg
      rw [show g = some j by simpa using hgj] at hthis
      subst hjx
      exact auditOverCaps_eq_zero.2 hthis.2.2

/-! ## SchemaMigrator lemmas -/

theorem getField_ite_setField_ne {c : Prop} [Decidable c] (o : Obj)
    {k1 k : String} (v : JVal) (h : k1 ≠ k) :
    getField (if c then o else setField o k1 v) k = getField o k := by
  split
  · rfl
  · exact getField_setField_ne o v h

theorem hasOwn_ite_setField_ne {c : Prop} [Decidable c] (o : Obj)
    {k1 k : String} (v : JVal) (h : k1 ≠ k) :
    hasOwn (if c then o else setField o k1 v) k = hasOwn o k := by
  split
  · rfl
  · exact hasOwn_setField_ne o v h

/-- The legacy-key deletion loop of `migrateOne`, unfolded. -/
theorem oldKeysFold_eq (x : Obj) :
    oldKeys.foldl delField x =
      delField (delField (delField x "continental_congress") "battles")
        "letters_and_deeds" := rfl

theorem hasOwn_remapLegacy_old {j : Obj} {k : String} (h : k ∈ oldKeys) :
    hasOwn (remapLegacy j) k = false := by
  unfold remapLegacy
  rw [oldKeysFold_eq]
  fin_cases h
  · rw [hasOwn_delField_ne _ (by decide), hasOwn_delField_ne _ (by decide),
      hasOwn_delField_self]
  · rw [hasOwn_delField_ne _ (by decide), hasOwn_delField_self]
  · rw [hasOwn_delField_self]

theorem getField_remapLegacy_other {j : Obj} {k : String}
    (h1 : k ∉ capKeys) (h2 : k ∉ oldKeys) :
    getField (remapLegacy j) k = getField j k := by
  have c1 : k ≠ "soldiers_day" := fun hc => h1 (by simp [capKeys, hc])
  have c2 : k ≠ "men_of_command" := fun hc => h1 (by simp [capKeys, hc])
  have c3 : k ≠ "continental_congress_committees" := fun hc => h1 (by simp [capKeys, hc])
  have c4 : k ≠ "voices_beyond_the_line" := fun hc => h1 (by simp [capKeys, hc])
  have o1 : k ≠ "continental_congress" := fun hc => h2 (by simp [oldKeys, hc])
  have o2 : k ≠ "battles" := fun hc => h2 (by simp [oldKeys, hc])
  have o3 : k ≠ "letters_and_deeds" := fun hc => h2 (by simp [oldKeys, hc])
  unfold remapLegacy
  rw [oldKeysFold_eq,
    getField_delField_ne _ (fun hc => o3 hc.symm),
    getField_delField_ne _ (fun hc => o2 hc.symm),
    getField_delField_ne _ (fun hc => o1 hc.symm),
    getField_ite_setField_ne _ _ (fun hc => c4 hc.symm),
    getField_ite_setField_ne _ _ (fun hc => c3 hc.symm),
    getField_ite_setField_ne _ _ (fun hc => c2 hc.symm),
    getField_ite_setField_ne _ _ (fun hc => c1 hc.symm)]

theorem getField_remapLegacy_isArr {j : Obj} {k : String} (hmem : k ∈ capKeys)
    (h : isArrVal (getField j k) = true) :
    getField (remapLegacy j) k = getField j k := by
  unfold remapLegacy
  rw [oldKeysFold_eq]
  fin_cases hmem
  · rw [getField_delField_ne _ (by decide), getField_delField_ne _ (by decide),
      getField_delField_ne _ (by decide),
      getField_ite_setField_ne _ _ (by decide),
      getField_ite_setField_ne _ _ (by decide),
      getField_ite_setField_ne _ _ (by decide), if_pos h]
  · rw [getField_delField_ne _ (by decide), getField_delField_ne _ (by decide),
      getField_delField_ne _ (by decide),
      getField_ite_setField_ne _ _ (by decide),
      getField_ite_setField_ne _ _ (by decide)]
    rw [if_pos (show isArrVal (getField (if isArrVal (getField j "soldiers_day") = true
        then j else setField j "soldiers_day"
          (.arr (getArr j "letters_and_deeds" ++ getArr j "battles")))
        "men_of_command") = true from by
      rw [getField_ite_setField_ne _ _ (by decide)]; exact h)]
    rw [getField_ite_setField_ne _ _ (by decide)]
  · rw [getField_delField_ne _ (by decide), getField_delField_ne _ (by decide),
      getField_delField_ne _ (by decide),
      getField_ite_setField_ne _ _ (by decide)]
    rw [if_pos (show isArrVal (getField (if isArrVal (getField (if isArrVal
        (getField j "soldiers_day") = true then j else setField j "soldiers_day"
          (.arr (getArr j "letters_and_deeds" ++ getArr j "battles")))
        "men_of_command") = true then _ else setField _ "men_of_command"
          (.arr [])) "continental_congress_committees") = true from by
      rw [getField_ite_setField_ne _ _ (by decide),
        getField_ite_setField_ne _ _ (by decide)]; exact h)]
    rw [getField_ite_setField_ne _ _ (by decide),
      getField_ite_setField_ne _ _ (by decide)]
  · rw [getField_delField_ne _ (by decide), getField_delField_ne _ (by decide),
      getField_delField_ne _ (by decide)]
    rw [if_pos (show isArrVal (getField (if isArrVal (getField (if isArrVal
        (getField (if isArrVal (getField j "soldiers_day") = true then j
          else setField j "soldiers_day"
            (.arr (getArr j "letters_and_deeds" ++ getArr j "battles")))
        "men_of_command") = true then _ else setField _ "men_of_command"
          (.arr [])) "continental_congress_committees") = true then _
        else setField _ "continental_congress_committees"
          (.arr (getArr j "continental_congress")))
        "voices_beyond_the_line") = true from by
      rw [getField_ite_setField_ne _ _ (by decide),
        getField_ite_setField_ne _ _ (by decide),
        getField_ite_setField_ne _ _ (by decide)]; exact h)]
    rw [getField_ite_setField_ne _ _ (by decide),
      getField_ite_setField_ne _ _ (by decide),
      getField_ite_setField_ne _ _ (by decide)]

theorem dateOkVal_iff {v : Option JVal} :
    dateOkVal v = true ↔ ∃ s, v = some (.str s) ∧ s ≠ "" := by
  rcases v with _ | w
  · simp [dateOkVal]
  · cases w <;> simp [dateOkVal]

theorem hasOwn_of_alreadyNew_old {j : Obj} {k : String}
    (h : alreadyNew j = true) (hk : k ∈ oldKeys) : hasOwn j k = false := by
  unfold alreadyNew at h
  rw [Bool.and_eq_true] at h
  have hb := List.all_eq_true.1 h.2 k hk
  simpa using hb

theorem hasOwn_stage2_old (jd : Obj) {k : String} (hk : k ∈ oldKeys) :
    hasOwn (normalizeKeys (if alreadyNew jd = true then jd else remapLegacy jd))
      k = false := by
  have hnotcap : k ∉ capKeys := by fin_cases hk <;> decide
  rw [hasOwn_normalizeKeys_notMem hnotcap]
  by_cases ha : alreadyNew jd = true
  · rw [if_pos ha]
    exact hasOwn_of_alreadyNew_old ha hk
  · rw [if_neg ha]
    exact hasOwn_remapLegacy_old hk

theorem hasOwn_migrateOne_old (base : String) (j : Obj) {k : String}
    (hk : k ∈ oldKeys) : hasOwn (migrateOne base j) k = false := by
  unfold migrateOne
  exact hasOwn_stage2_old _ hk

theorem getField_migrateOne_date (base : String) (j : Obj) :
    ∃ s, getField (migrateOne base j) "date" = some (.str s) ∧
      (s ≠ "" ∨ s = base) := by
  unfold migrateOne
  have hdnotcap : ("date" : String) ∉ capKeys := by decide
  have hdnotold : ("date" : String) ∉ oldKeys := by decide
  rw [getField_normalizeKeys_notMem hdnotcap]
  have hstage2 : ∀ jd : Obj,
      getField (if alreadyNew jd = true then jd else remapLegacy jd) "date" =
        getField jd "date" := by
    intro jd
    by_cases ha : alreadyNew jd = true
    · rw [if_pos ha]
    · rw [if_neg ha]
      exact getField_remapLegacy_other hdnotcap hdnotold
  rw [hstage2]
  by_cases hd : dateOkVal (getField j "date") = true
  · rw [if_pos hd]
    obtain ⟨s, hs, hne⟩ := dateOkVal_iff.1 hd
    exact ⟨s, hs, Or.inl hne⟩
  · rw [if_neg hd]
    exact ⟨base, getField_setField_self j "date" _, Or.inr rfl⟩

/-! ## Claim C4: migration is idempotent -/

/-- C4: running the schema migrator twice on any record, with any
derived filename base, produces exactly the same output as running it
once — the second pass finds all four current-shape keys present as
arrays and no legacy keys, so it neither re-concatenates legacy content
nor changes any field. -/
theorem migrateOne_idempotent (base : String) (j : Obj) :
    migrateOne base (migrateOne base j) = migrateOne base j := by
  have F1 : ∀ k ∈ capKeys, isArrVal (getField (migrateOne base j) k) = true := by
    intro k hk
    unfold migrateOne
    exact isArrVal_normalizeKeys_mem hk
  have F2 : ∀ k ∈ oldKeys, hasOwn (migrateOne base j) k = false :=
    fun k hk => hasOwn_migrateOne_old base j hk
  have F3 := getField_migrateOne_date base j
  have hunfold : ∀ x : Obj, migrateOne base x =
      normalizeKeys (if alreadyNew (if dateOkVal (getField x "date") = true
          then x else setField x "date" (.str base)) = true
        then (if dateOkVal (getField x "date") = true then x
          else setField x "date" (.str base))
        else remapLegacy (if dateOkVal (getField x "date") = true then x
          else setField x "date" (.str base))) := fun x => rfl
  generalize hrec : migrateOne base j = j1 at F1 F2 F3
  rw [hunfold j1]
  have hd' : (if dateOkVal (getField j1 "date") = true
      then j1
      else setField j1 "date" (.str base)) = j1 := by
    obtain ⟨s, hs, hcase⟩ := F3
    by_cases hdk : dateOkVal (getField j1 "date") = true
    · rw [if_pos hdk]
    · rw [if_neg hdk]
      have hsb : s = base := by
        rcases hcase with h | h
        · exact absurd (dateOkVal_iff.2 ⟨s, hs, h⟩) hdk
        · exact h
      rw [hsb] at hs
      exact setField_of_getField hs
  rw [hd']
  have han : alreadyNew j1 = true := by
    unfold alreadyNew
    rw [Bool.and_eq_true]
    constructor
    · rw [List.all_eq_true]
      intro k hk
      have hiA := F1 k hk
      rcases hf : getField j1 k with _ | v
      · rw [hf] at hiA; simp [isArrVal] at hiA
      · exact hasOwn_of_getField hf
    · rw [List.all_eq_true]
      intro k hk
      simp [F2 k hk]
  rw [if_pos han]
  exact normalizeKeys_of_all_isArr F1

/-- `migrateOne` unfolded: filename-derived date fix, legacy remap
unless `alreadyNew`, then key normalization. -/
theorem migrateOne_eq (base : String) (j : Obj) :
    migrateOne base j =
      normalizeKeys (if alreadyNew (if dateOkVal (getField j "date") = true
          then j else setField j "date" (.str base)) = true
        then (if dateOkVal (getField j "date") = true then j
          else setField j "date" (.str base))
        else remapLegacy (if dateOkVal (getField j "date") = true then j
          else setField j "date" (.str base))) := rfl

theorem getField_remapLegacy_sd_fresh {j : Obj}
    (h1 : getField j "soldiers_day" = none) :
    getField (remapLegacy j) "soldiers_day" =
      some (.arr (getArr j "letters_and_deeds" ++ getArr j "battles")) := by
  unfold remapLegacy
  rw [oldKeysFold_eq, getField_delField_ne _ (by decide),
    getField_delField_ne _ (by decide), getField_delField_ne _ (by decide),
    getField_ite_setField_ne _ _ (by decide),
    getField_ite_setField_ne _ _ (by decide),
    getField_ite_setField_ne _ _ (by decide),
    if_neg (by rw [h1]; simp [isArrVal]), getField_setField_self]

theorem getField_remapLegacy_mc_fresh {j : Obj}
    (h2 : getField j "men_of_command" = none) :
    getField (remapLegacy j) "men_of_command" = some (.arr []) := by
  unfold remapLegacy
  rw [oldKeysFold_eq, getField_delField_ne _ (by decide),
    getField_delField_ne _ (by decide), getField_delField_ne _ (by decide),
    getField_ite_setField_ne _ _ (by decide),
    getField_ite_setField_ne _ _ (by decide)]
  rw [if_neg (show ¬ (isArrVal (getField (if isArrVal (getField j
      "soldiers_day") = true then j else setField j "soldiers_day"
        (.arr (getArr j "letters_and_deeds" ++ getArr j "battles")))
      "men_of_command") = true) from by
    rw [getField_ite_setField_ne _ _ (by decide), h2]; simp [isArrVal])]
  rw [getField_setField_self]

theorem getField_remapLegacy_cc_fresh {j : Obj}
    (h3 : getField j "continental_congress_committees" = none) :
    getField (remapLegacy j) "continental_congress_committees" =
      some (.arr (getArr j "continental_congress")) := by
  unfold remapLegacy
  rw [oldKeysFold_eq, getField_delField_ne _ (by decide),
    getField_delField_ne _ (by decide), getField_delField_ne _ (by decide),
    getField_ite_setField_ne _ _ (by decide)]
  rw [if_neg (show ¬ (isArrVal (getField (if isArrVal (getField (if isArrVal
      (getField j "soldiers_day") = true then j else setField j "soldiers_day"
        (.arr (getArr j "letters_and_deeds" ++ getArr j "battles")))
      "men_of_command") = true then _ else setField _ "men_of_command"
        (.arr [])) "continental_congress_committees") = true) from by
    rw [getField_ite_setField_ne _ _ (by decide),
      getField_ite_setField_ne _ _ (by decide), h3]; simp [isArrVal])]
  rw [getField_setField_self]

theorem getField_remapLegacy_vo_fresh {j : Obj}
    (h4 : getField j "voices_beyond_the_line" = none) :
    getField (remapLegacy j) "voices_beyond_the_line" = some (.arr []) := by
  unfold remapLegacy
  rw [oldKeysFold_eq, getField_delField_ne _ (by decide),
    getField_delField_ne _ (by decide), getField_delField_ne _ (by decide)]
  rw [if_neg (show ¬ (isArrVal (getField (if isArrVal (getField (if isArrVal
      (getField (if isArrVal (getField j "soldiers_day") = true then j
        else setField j "soldiers_day"
          (.arr (getArr j "letters_and_deeds" ++ getArr j "battles")))
      "men_of_command") = true then _ else setField _ "men_of_command"
        (.arr [])) "continental_congress_committees") = true then _
      else setField _ "continental_congress_committees"
        (.arr (getArr j "continental_congress")))
      "voices_beyond_the_line") = true) from by
    rw [getField_ite_setField_ne _ _ (by decide),
      getField_ite_setField_ne _ _ (by decide),
      getField_ite_setField_ne _ _ (by decide), h4]; simp [isArrVal])]
  rw [getField_setField_self]

/-! ## Claim C5: the legacy → current content mapping -/

theorem migrateOne_legacy_fields (base : String) (j : Obj)
    (ls bs cs : List JVal)
    (hnew : ∀ k ∈ capKeys, hasOwn j k = false)
    (hl : getField j "letters_and_deeds" = some (.arr ls))
    (hb : getField j "battles" = some (.arr bs))
    (hc : getField j "continental_congress" = some (.arr cs)) :
    getField (migrateOne base j) "soldiers_day" = some (.arr (ls ++ bs)) ∧
    getField (migrateOne base j) "continental_congress_committees" =
      some (.arr cs) ∧
    getField (migrateOne base j) "men_of_command" = some (.arr []) ∧
    getField (migrateOne base j) "voices_beyond_the_line" = some (.arr []) := by
  rw [migrateOne_eq]
  generalize hjd : (if dateOkVal (getField j "date") = true then j
    else setField j "date" (.str base)) = jd
  have hjdf : ∀ k : String, k ≠ "date" → getField jd k = getField j k := by
    intro k hk
    rw [← hjd]
    by_cases hd : dateOkVal (getField j "date") = true
    · rw [if_pos hd]
    · rw [if_neg hd]
      exact getField_setField_ne _ _ (fun hcq => hk hcq.symm)
  have hjdh : ∀ k : String, k ≠ "date" → hasOwn jd k = hasOwn j k := by
    intro k hk
    rw [← hjd]
    by_cases hd : dateOkVal (getField j "date") = true
    · rw [if_pos hd]
    · rw [if_neg hd]
      exact hasOwn_setField_ne _ _ (fun hcq => hk hcq.symm)
  have hnewjd : ∀ k ∈ capKeys, hasOwn jd k = false := by
    intro k hk
    rw [hjdh k (by fin_cases hk <;> decide)]
    exact hnew k hk
  have han : alreadyNew jd = false := by
    rcases Bool.eq_false_or_eq_true (alreadyNew jd) with h | h
    · exfalso
      unfold alreadyNew at h
      rw [Bool.and_eq_true] at h
      have hsd := List.all_eq_true.1 h.1 "soldiers_day" (by decide)
      rw [hnewjd "soldiers_day" (by decide)] at hsd
      exact absurd hsd (by simp)
    · exact h
  rw [han]
  simp only [Bool.false_eq_true, if_false]
  have hLs : getArr jd "letters_and_deeds" = ls := by
    unfold getArr; rw [hjdf _ (by decide), hl]
  have hBs : getArr jd "battles" = bs := by
    unfold getArr; rw [hjdf _ (by decide), hb]
  have hCs : getArr jd "continental_congress" = cs := by
    unfold getArr; rw [hjdf _ (by decide), hc]
  have h1 : getField jd "soldiers_day" = none :=
    getField_eq_none_of_not_hasOwn (hnewjd _ (by decide))
  have h2 : getField jd "men_of_command" = none :=
    getField_eq_none_of_not_hasOwn (hnewjd _ (by decide))
  have h3 : getField jd "continental_congress_committees" = none :=
    getField_eq_none_of_not_hasOwn (hnewjd _ (by decide))
  have h4 : getField jd "voices_beyond_the_line" = none :=
    getField_eq_none_of_not_hasOwn (hnewjd _ (by decide))
  have hsd := getField_remapLegacy_sd_fresh h1
  rw [hLs, hBs] at hsd
  have hmc := getField_remapLegacy_mc_fresh h2
  have hcc := getField_remapLegacy_cc_fresh h3
  rw [hCs] at hcc
  have hvo := getField_remapLegacy_vo_fresh h4
  refine ⟨?_, ?_, ?_, ?_⟩
  · rw [getField_normalizeKeys_of_isArr (by rw [hsd]; rfl), hsd]
  · rw [getField_normalizeKeys_of_isArr (by rw [hcc]; rfl), hcc]
  · rw [getField_normalizeKeys_of_isArr (by rw [hmc]; rfl), hmc]
  · rw [getField_normalizeKeys_of_isArr (by rw [hvo]; rfl), hvo]

/-- C5: for every legacy-shape record (none of the current-shape keys
present; the three legacy categories present as sequences), migration
produces the current shape with exactly this mapping: the primary
category is letters_and_deeds followed by battles, the congress
secondary receives the legacy congress category, the other two
secondaries are empty, the legacy keys are removed, and the date field
is set; no primary entry is invented — the primary is exactly the
concatenation, even when both legacy lists are empty. -/
theorem migrateOne_legacy (base : String) (j : Obj) (ls bs cs : List JVal)
    (hnew : ∀ k ∈ capKeys, hasOwn j k = false)
    (hl : getField j "letters_and_deeds" = some (.arr ls))
    (hb : getField j "battles" = some (.arr bs))
    (hc : getField j "continental_congress" = some (.arr cs)) :
    getField (migrateOne base j) "soldiers_day" = some (.arr (ls ++ bs)) ∧
    getField (migrateOne base j) "continental_congress_committees" =
      some (.arr cs) ∧
    getField (migrateOne base j) "men_of_command" = some (.arr []) ∧
    getField (migrateOne base j) "voices_beyond_the_line" = some (.arr []) ∧
    (∀ k ∈ oldKeys, hasOwn (migrateOne base j) k = false) ∧
    (∃ s, getField (migrateOne base j) "date" = some (.str s)) := by
  obtain ⟨f1, f2, f3, f4⟩ := migrateOne_legacy_fields base j ls bs cs hnew hl hb hc
  refine ⟨f1, f2, f3, f4, fun k hk => hasOwn_migrateOne_old base j hk, ?_⟩
  obtain ⟨s, hs, _⟩ := getField_migrateOne_date base j
  exact ⟨s, hs⟩

/-- Witness for `migrateOne_legacy`: a concrete legacy record with one
entry in each legacy category. -/
theorem migrateOne_legacy_witness :
    getField (migrateOne "1775-07-04"
        [("date", JVal.str "1775-07-04"),
         ("continental_congress", JVal.arr [JVal.str "c1"]),
         ("battles", JVal.arr [JVal.str "b1"]),
         ("letters_and_deeds", JVal.arr [JVal.str "l1"])])
      "soldiers_day" = some (.arr ([JVal.str "l1"] ++ [JVal.str "b1"])) ∧
    getField (migrateOne "1775-07-04"
        [("date", JVal.str "1775-07-04"),
         ("continental_congress", JVal.arr [JVal.str "c1"]),
         ("battles", JVal.arr [JVal.str "b1"]),
         ("letters_and_deeds", JVal.arr [JVal.str "l1"])])
      "continental_congress_committees" = some (.arr [JVal.str "c1"]) ∧
    getField (migrateOne "1775-07-04"
        [("date", JVal.str "1775-07-04"),
         ("continental_congress", JVal.arr [JVal.str "c1"]),
         ("battles", JVal.arr [JVal.str "b1"]),
         ("letters_and_deeds", JVal.arr [JVal.str "l1"])])
      "men_of_command" = some (.arr []) ∧
    getField (migrateOne "1775-07-04"
        [("date", JVal.str "1775-07-04"),
         ("continental_congress", JVal.arr [JVal.str "c1"]),
         ("battles", JVal.arr [JVal.str "b1"]),
         ("letters_and_deeds", JVal.arr [JVal.str "l1"])])
      "voices_beyond_the_line" = some (.arr []) ∧
    (∀ k ∈ oldKeys, hasOwn (migrateOne "1775-07-04"
        [("date", JVal.str "1775-07-04"),
         ("continental_congress", JVal.arr [JVal.str "c1"]),
         ("battles", JVal.arr [JVal.str "b1"]),
         ("letters_and_deeds", JVal.arr [JVal.str "l1"])]) k = false) ∧
    (∃ s, getField (migrateOne "1775-07-04"
        [("date", JVal.str "1775-07-04"),
         ("continental_congress", JVal.arr [JVal.str "c1"]),
         ("battles", JVal.arr [JVal.str "b1"]),
         ("letters_and_deeds", JVal.arr [JVal.str "l1"])])
      "date" = some (JVal.str s)) :=
  migrateOne_legacy "1775-07-04"
    [("date", JVal.str "1775-07-04"),
     ("continental_congress", JVal.arr [JVal.str "c1"]),
     ("battles", JVal.arr [JVal.str "b1"]),
     ("letters_and_deeds", JVal.arr [JVal.str "l1"])]
    [JVal.str "l1"] [JVal.str "b1"] [JVal.str "c1"]
    (by decide) rfl rfl rfl

/-! ## Claim C10: legacy entries are discarded, not merged -/

/-- C10: for every record that has a current-shape category field
already present as a valid sequence together with one or more legacy
category fields, migration leaves that current-shape category exactly
as it was — it does not merge the legacy entries into it — and removes
the legacy keys, so the entries held under the legacy keys are
discarded from the record's output. -/
theorem migrateOne_discards_legacy (base : String) (j : Obj) (k : String)
    (xs : List JVal) (hk : k ∈ capKeys)
    (hx : getField j k = some (.arr xs))
    (_hleg : ∃ k0 ∈ oldKeys, hasOwn j k0 = true) :
    getField (migrateOne base j) k = some (.arr xs) ∧
    (∀ k0 ∈ oldKeys, hasOwn (migrateOne base j) k0 = false) := by
  have hfield : getField (migrateOne base j) k = some (.arr xs) := by
    rw [migrateOne_eq]
    generalize hjd : (if dateOkVal (getField j "date") = true then j
      else setField j "date" (.str base)) = jd
    have hkd : k ≠ "date" := by fin_cases hk <;> decide
    have hjdf : getField jd k = getField j k := by
      rw [← hjd]
      by_cases hd : dateOkVal (getField j "date") = true
      · rw [if_pos hd]
      · rw [if_neg hd]
        exact getField_setField_ne _ _ (fun hcq => hkd hcq.symm)
    have hisr : isArrVal (getField jd k) = true := by rw [hjdf, hx]; rfl
    by_cases ha : alreadyNew jd = true
    · rw [if_pos ha, getField_normalizeKeys_of_isArr hisr, hjdf, hx]
    · rw [if_neg ha,
        getField_normalizeKeys_of_isArr
          (by rw [getField_remapLegacy_isArr hk hisr]; exact hisr),
        getField_remapLegacy_isArr hk hisr, hjdf, hx]
  exact ⟨hfield, fun k0 hk0 => hasOwn_migrateOne_old base j hk0⟩

/-- Witness for `migrateOne_discards_legacy`: a half-migrated record
whose primary category is already the sequence `[s0]` while the legacy
letters_and_deeds key still holds `[x1]`; migration keeps `[s0]` and
drops `[x1]`. -/
theorem migrateOne_discards_legacy_witness :
    getField (migrateOne "1775-07-05"
        [("date", JVal.str "1775-07-05"),
         ("soldiers_day", JVal.arr [JVal.str "s0"]),
         ("letters_and_deeds", JVal.arr [JVal.str "x1"])])
      "soldiers_day" = some (.arr [JVal.str "s0"]) ∧
    (∀ k0 ∈ oldKeys, hasOwn (migrateOne "1775-07-05"
        [("date", JVal.str "1775-07-05"),
         ("soldiers_day", JVal.arr [JVal.str "s0"]),
         ("letters_and_deeds", JVal.arr [JVal.str "x1"])]) k0 = false) :=
  migrateOne_discards_legacy "1775-07-05"
    [("date", JVal.str "1775-07-05"),
     ("soldiers_day", JVal.arr [JVal.str "s0"]),
     ("letters_and_deeds", JVal.arr [JVal.str "x1"])]
    "soldiers_day" [JVal.str "s0"] (by decide) rfl
    ⟨"letters_and_deeds", by decide, rfl⟩

/-! ## Claim C1: the empty-primary invariant gate -/

theorem getArr_promoteStep_ne (p : Obj × Obj) {key k : String}
    (idx : List Int) (ov : Bool) (h : key ≠ k) :
    getArr (promoteStep p key idx ov).1 k = getArr p.1 k := by
  unfold promoteStep
  split
  · exact getArr_applyPromotion_ne _ _ _ _ h
  · rfl

theorem promote_gate_exit_one (a : PromoteArgs) (intake0 data0 : Obj)
    (h1 : isIsoShape a.iso = true) (h2 : a.listOnly = false)
    (h3 : ¬ (parseCsvIndices a.soldiersCsv = [] ∧
      parseCsvIndices a.commandCsv = [] ∧ parseCsvIndices a.congressCsv = [] ∧
      parseCsvIndices a.voicesCsv = []))
    (h4 : (getArr (applyAll (normalizeKeys data0) (normalizeKeys intake0)
        (parseCsvIndices a.soldiersCsv) (parseCsvIndices a.commandCsv)
        (parseCsvIndices a.congressCsv) (parseCsvIndices a.voicesCsv)
        a.overwrite).1 "soldiers_day").length = 0) :
    promoteMain a (some intake0) (some data0) = (1, some data0) := by
  unfold promoteMain
  rw [if_neg (show ¬¬(isIsoShape a.iso = true) from fun hno => hno h1)]
  dsimp only
  rw [if_neg (show ¬(a.listOnly = true) from by rw [h2]; simp)]
  rw [if_neg h3, if_pos h4]

theorem promote_empty_primary_no_write (a : PromoteArgs) (intake0 data0 : Obj)
    (hd : getArr data0 "soldiers_day" = [])
    (hs : resolvePicks (getArr intake0 "soldiers_day")
      (parseCsvIndices a.soldiersCsv) = []) :
    (promoteMain a (some intake0) (some data0)).2 = some data0 := by
  have hsold : (getArr (applyAll (normalizeKeys data0) (normalizeKeys intake0)
      (parseCsvIndices a.soldiersCsv) (parseCsvIndices a.commandCsv)
      (parseCsvIndices a.congressCsv) (parseCsvIndices a.voicesCsv)
      a.overwrite).1 "soldiers_day").length = 0 := by
    unfold applyAll
    rw [getArr_promoteStep_ne _ _ _ (by decide),
      getArr_promoteStep_ne _ _ _ (by decide),
      getArr_promoteStep_ne _ _ _ (by decide)]
    unfold promoteStep
    by_cases hi : parseCsvIndices a.soldiersCsv ≠ []
    · rw [if_pos hi]
      show (getArr (applyPromotion (normalizeKeys data0) (normalizeKeys intake0)
        "soldiers_day" (parseCsvIndices a.soldiersCsv) a.overwrite).data
        "soldiers_day").length = 0
      rw [getArr_applyPromotion_self, getArr_normalizeKeys,
        getArr_normalizeKeys, hd, hs]
      cases a.overwrite <;> simp
    · rw [if_neg hi]
      show (getArr (normalizeKeys data0) "soldiers_day").length = 0
      rw [getArr_normalizeKeys, hd]
      rfl
  rcases promoteMain_cases a (some intake0) (some data0) with
    hc | ⟨i0, d0, hi, hd0, hgate, _⟩
  · exact hc
  · exfalso
    have hieq : i0 = intake0 := by injection hi with h; exact h.symm
    have hdeq : d0 = data0 := by injection hd0 with h; exact h.symm
    rw [hieq, hdeq] at hgate
    exact hgate hsold

/-- C1: when, after all selected categories are merged, the primary
category's final value is empty, the promote invocation exits with
code 1 — distinct from the usage-error code 2 — and performs no store
write: the stored record for the address is exactly the prior one.  In
particular, for a record whose primary category is empty and a primary
selection that resolves no candidate (empty, or every position out of
range), the data file after the run is byte-for-byte the prior one, no
matter what the other selections, flags, or intake contents are. -/
theorem promote_gate_no_write :
    (∀ (a : PromoteArgs) (intake0 data0 : Obj),
      isIsoShape a.iso = true → a.listOnly = false →
      ¬ (parseCsvIndices a.soldiersCsv = [] ∧
        parseCsvIndices a.commandCsv = [] ∧
        parseCsvIndices a.congressCsv = [] ∧
        parseCsvIndices a.voicesCsv = []) →
      (getArr (applyAll (normalizeKeys data0) (normalizeKeys intake0)
          (parseCsvIndices a.soldiersCsv) (parseCsvIndices a.commandCsv)
          (parseCsvIndices a.congressCsv) (parseCsvIndices a.voicesCsv)
          a.overwrite).1 "soldiers_day").length = 0 →
      promoteMain a (some intake0) (some data0) = (1, some data0))
    ∧ (∀ (a : PromoteArgs) (intake0 data0 : Obj),
      getArr data0 "soldiers_day" = [] →
      resolvePicks (getArr intake0 "soldiers_day")
        (parseCsvIndices a.soldiersCsv) = [] →
      (promoteMain a (some intake0) (some data0)).2 = some data0) :=
  ⟨promote_gate_exit_one, promote_empty_primary_no_write⟩

/-- Witness for `promote_gate_no_write`: promoting with an out-of-range
primary selection `--soldiers 5` against a one-candidate intake and an
empty scaffold record exits 1 and leaves the record untouched. -/
theorem promote_gate_no_write_witness :
    promoteMain
      { iso := "1775-07-04", soldiersCsv := some "5", commandCsv := none,
        congressCsv := none, voicesCsv := none,
        listOnly := false, overwrite := false, dryRun := false }
      (some [("soldiers_day", JVal.arr [JVal.str "cand"])])
      (some (emptyDay "1775-07-04")) = (1, some (emptyDay "1775-07-04")) :=
  promote_gate_no_write.1
    { iso := "1775-07-04", soldiersCsv := some "5", commandCsv := none,
      congressCsv := none, voicesCsv := none,
      listOnly := false, overwrite := false, dryRun := false }
    [("soldiers_day", JVal.arr [JVal.str "cand"])]
    (emptyDay "1775-07-04")
    (by decide) rfl (by decide) (by decide)

/-! ## Claim C9: non-numeric and below-one tokens die in CSV parsing -/

/-- The token condition of the claim, per flag value: every token of
the CSV (if the flag was given) is non-numeric (NaN under `Number`) or
converts to a number below 1. -/
def allTokensBelowOne : Option String → Prop
  | none => True
  | some s => ∀ t ∈ csvTokens s, (jsNumberInt t).elim True (fun n => n < 1)

instance : (o : Option Int) → Decidable (o.elim True (fun n => n < 1))
  | none => .isTrue trivial
  | some n => inferInstanceAs (Decidable (n < 1))

instance : (so : Option String) → Decidable (allTokensBelowOne so)
  | none => .isTrue trivial
  | some s => inferInstanceAs (Decidable (∀ t ∈ csvTokens s,
      (jsNumberInt t).elim True (fun n => n < 1)))

theorem parseCsvIndices_eq_nil {so : Option String}
    (h : allTokensBelowOne so) : parseCsvIndices so = [] := by
  rcases so with _ | s
  · rfl
  · unfold parseCsvIndices
    dsimp only
    by_cases hs : s = ""
    · rw [if_pos hs]
    · rw [if_neg hs]
      rw [List.filter_eq_nil_iff]
      intro n hn
      obtain ⟨t, ht, htn⟩ := List.mem_filterMap.1 hn
      have hc := h t ht
      rw [htn] at hc
      simp only [Option.elim] at hc
      simp only [decide_eq_true_eq]
      omega

theorem resolvePicks_eq_nil {cand : List JVal} {idx : List Int}
    (h : ∀ n ∈ idx, n - 1 < 0 ∨ n - 1 ≥ (cand.length : Int)) :
    resolvePicks cand idx = [] := by
  unfold resolvePicks
  rw [List.filterMap_eq_nil_iff]
  intro n hn
  simp only
  rw [if_pos (h n hn)]

/-- C9: when every supplied selection token, across all four category
flags, is non-numeric or a number below 1, every parsed index list is
empty, so the invocation is rejected as an empty selection with the
usage exit code 2 and no store write — such tokens are consumed by
`parseCsvIndices` and never reach the per-category out-of-range skip;
by contrast a numeric position above the candidate-list length (for
example 99) survives parsing as a selection and is silently dropped
inside `applyPromotion`'s resolution loop instead. -/
theorem promote_bad_tokens_usage_error :
    (∀ (a : PromoteArgs) (intake0 data0 : Obj),
      isIsoShape a.iso = true → a.listOnly = false →
      allTokensBelowOne a.soldiersCsv → allTokensBelowOne a.commandCsv →
      allTokensBelowOne a.congressCsv → allTokensBelowOne a.voicesCsv →
      promoteMain a (some intake0) (some data0) = (2, some data0))
    ∧ parseCsvIndices (some "99") = [99]
    ∧ (∀ cand : List JVal, (cand.length : Int) < 99 →
        resolvePicks cand [99] = []) := by
  refine ⟨?_, by decide, ?_⟩
  · intro a intake0 data0 h1 h2 hs hcVal hg hv
    unfold promoteMain
    rw [if_neg (show ¬¬(isIsoShape a.iso = true) from fun hno => hno h1)]
    dsimp only
    rw [if_neg (show ¬(a.listOnly = true) from by rw [h2]; simp)]
    rw [if_pos ⟨parseCsvIndices_eq_nil hs, parseCsvIndices_eq_nil hcVal,
      parseCsvIndices_eq_nil hg, parseCsvIndices_eq_nil hv⟩]
  · intro cand hlen
    exact resolvePicks_eq_nil (fun n hn => by
      simp only [List.mem_singleton] at hn
      subst hn
      right
      omega)

/-- Witness for `promote_bad_tokens_usage_error`: the selection
`--soldiers "0, -3, x"` (a below-one index, a negative index and a
non-numeric token) is discarded whole during parsing and the invocation
exits 2 without touching the record. -/
theorem promote_bad_tokens_usage_error_witness :
    promoteMain
      { iso := "1775-07-04", soldiersCsv := some "0, -3, x",
        commandCsv := none, congressCsv := none, voicesCsv := none,
        listOnly := false, overwrite := false, dryRun := false }
      (some [("soldiers_day", JVal.arr [JVal.str "cand"])])
      (some (emptyDay "1775-07-04")) = (2, some (emptyDay "1775-07-04")) :=
  promote_bad_tokens_usage_error.1
    { iso := "1775-07-04", soldiersCsv := some "0, -3, x",
      commandCsv := none, congressCsv := none, voicesCsv := none,
      listOnly := false, overwrite := false, dryRun := false }
    [("soldiers_day", JVal.arr [JVal.str "cand"])]
    (emptyDay "1775-07-04")
    (by decide) rfl (by decide) (by decide) (by decide) (by decide)

/-! ## Claim C8: the scaffold generator -/

theorem storeGet_append_single (st : Store) (k : String) (v : Obj)
    (iso : String) :
    storeGet (st ++ [(k, v)]) iso =
      match storeGet st iso with
      | some r => some r
      | none => if k = iso then some v else none := by
  induction st with
  | nil => rfl
  | cons p st ih =>
    obtain ⟨k', r⟩ := p
    by_cases h : k' = iso <;> simp [storeGet, h, ih]

theorem storeGet_scaffoldStep_of_some {st : Store} {iso : String} {r : Obj}
    (dt : Date) (h : storeGet st iso = some r) :
    storeGet (scaffoldStep st dt) iso = some r := by
  unfold scaffoldStep
  split
  · exact h
  · rw [storeGet_append_single, h]

theorem scaffold_foldl_preserves :
    ∀ (dates : List Date) (st : Store) {iso : String} {r : Obj},
      storeGet st iso = some r →
      storeGet (dates.foldl scaffoldStep st) iso = some r
  | [], _, _, _, h => h
  | dt :: dates, _, _, _, h =>
    scaffold_foldl_preserves dates _ (storeGet_scaffoldStep_of_some dt h)

theorem storeGet_scaffoldStep_inv {st : Store} {iso : String} (dt : Date)
    (h : storeGet st iso = none ∨ storeGet st iso = some (emptyDay iso)) :
    storeGet (scaffoldStep st dt) iso = none ∨
      storeGet (scaffoldStep st dt) iso = some (emptyDay iso) := by
  unfold scaffoldStep
  split
  · exact h
  · rw [storeGet_append_single]
    rcases h with h | h
    · rw [h]
      by_cases hk : toIso dt = iso
      · right
        rw [if_pos hk, hk]
      · left
        rw [if_neg hk]
    · rw [h]
      right
      rfl

theorem scaffold_foldl_creates :
    ∀ (dates : List Date) (st : Store) {iso : String},
      iso ∈ dates.map toIso →
      (storeGet st iso = none ∨ storeGet st iso = some (emptyDay iso)) →
      storeGet (dates.foldl scaffoldStep st) iso = some (emptyDay iso) := by
  intro dates
  induction dates with
  | nil =>
    intro st iso hm
    simp at hm
  | cons dt dates ih =>
    intro st iso hm hinv
    rw [List.map_cons] at hm
    rcases List.mem_cons.1 hm with heq | hmem
    · have hstep : storeGet (scaffoldStep st dt) iso = some (emptyDay iso) := by
        unfold scaffoldStep
        by_cases hhas : storeHas st (toIso dt) = true
        · rw [if_pos hhas]
          rcases hinv with hn | hs
          · exfalso
            unfold storeHas at hhas
            rw [← heq, hn] at hhas
            simp at hhas
          · exact hs
        · rw [if_neg hhas]
          rw [storeGet_append_single]
          have hnone : storeGet st iso = none := by
            rcases hinv with hn | hs
            · exact hn
            · exfalso
              apply hhas
              unfold storeHas
              rw [← heq, hs]
              rfl
          rw [hnone, if_pos heq.symm, ← heq]
      rw [List.foldl_cons]
      exact scaffold_foldl_preserves dates _ hstep
    · rw [List.foldl_cons]
      exact ih _ hmem (storeGet_scaffoldStep_inv dt hinv)

theorem storeHas_foldl_mono :
    ∀ (dates : List Date) (st : Store) (iso : String),
      storeHas st iso = true →
      storeHas (dates.foldl scaffoldStep st) iso = true := by
  intro dates st iso h
  unfold storeHas at h ⊢
  obtain ⟨r, hr⟩ := Option.isSome_iff_exists.1 h
  rw [scaffold_foldl_preserves dates st hr]
  rfl

theorem storeHas_scaffoldStep_self (st : Store) (dt : Date) :
    storeHas (scaffoldStep st dt) (toIso dt) = true := by
  unfold scaffoldStep
  by_cases h : storeHas st (toIso dt) = true
  · rw [if_pos h]
    exact h
  · rw [if_neg h]
    have hnone : storeGet st (toIso dt) = none := by
      rcases ho : storeGet st (toIso dt) with _ | r
      · rfl
      · exact absurd (by unfold storeHas; rw [ho]; rfl) h
    unfold storeHas
    rw [storeGet_append_single, hnone, if_pos rfl]
    rfl

theorem storeHas_foldl_after :
    ∀ (dates : List Date) (st : Store) {dt0 : Date}, dt0 ∈ dates →
      storeHas (dates.foldl scaffoldStep st) (toIso dt0) = true := by
  intro dates
  induction dates with
  | nil =>
    intro st dt0 h
    simp at h
  | cons dt dates ih =>
    intro st dt0 h
    rcases List.mem_cons.1 h with heq | hmem
    · subst heq
      rw [List.foldl_cons]
      exact storeHas_foldl_mono dates _ _ (storeHas_scaffoldStep_self st dt0)
    · rw [List.foldl_cons]
      exact ih _ hmem

theorem scaffold_foldl_id :
    ∀ (dates : List Date) (st : Store),
      (∀ dt ∈ dates, storeHas st (toIso dt) = true) →
      dates.foldl scaffoldStep st = st
  | [], _, _ => rfl
  | dt :: dates, st, h => by
    have hstep : scaffoldStep st dt = st := by
      unfold scaffoldStep
      rw [if_pos (h dt (List.mem_cons_self _ _))]
    rw [List.foldl_cons, hstep]
    exact scaffold_foldl_id dates st (fun d hd => h d (List.mem_cons_of_mem _ hd))

/-- The scaffold loop visits `PROJECT_START` first. -/
theorem scaffoldDates_head :
    scaffoldDates = projectStart :: dateListFrom (nextDay projectStart) 999 :=
  rfl

/-- Counterexample to C8 as stated: on an empty store, the record the
scaffold writes for 1775-07-04 is `emptyDay`, which does not contain
the four current-shape category fields at all — the primary category
key `soldiers_day` (and each other current key) is absent; the record
instead carries the three legacy-shape category sequences
(`continental_congress`, `battles`, `letters_and_deeds`), empty, plus
the date. -/
theorem scaffold_legacy_shape_cex :
    storeGet (scaffoldRun []) "1775-07-04" = some (emptyDay "1775-07-04") ∧
    hasOwn (emptyDay "1775-07-04") "soldiers_day" = false ∧
    hasOwn (emptyDay "1775-07-04") "men_of_command" = false ∧
    hasOwn (emptyDay "1775-07-04") "continental_congress_committees" = false ∧
    hasOwn (emptyDay "1775-07-04") "voices_beyond_the_line" = false ∧
    getField (emptyDay "1775-07-04") "date" = some (.str "1775-07-04") ∧
    getField (emptyDay "1775-07-04") "continental_congress" = some (.arr []) ∧
    getField (emptyDay "1775-07-04") "battles" = some (.arr []) ∧
    getField (emptyDay "1775-07-04") "letters_and_deeds" = some (.arr []) := by
  refine ⟨?_, rfl, rfl, rfl, rfl, rfl, rfl, rfl, rfl⟩
  apply scaffold_foldl_creates scaffoldDates [] _ (Or.inl rfl)
  rw [scaffoldDates_head, List.map_cons]
  exact List.mem_cons_self _ _

/-- C8 (amended): for every address the scaffold loop visits — one per
day from START to END inclusive, stepping by one day — it writes the
empty **legacy-shape** record (`emptyDay`: the date set to the address
and the three legacy category sequences empty; the four current-shape
category fields are not part of it, see `scaffold_legacy_shape_cex`)
when no record exists for that address, and skips the address untouched
when a record already exists; re-running never overwrites existing
content, and a second full run changes nothing (idempotent).  The loop
really covers the whole range: it starts at START (1775-07-04), visits
END (1776-07-04), and visits 367 dates in all. -/
theorem scaffold_generator :
    (∀ (st : Store) (iso : String) (r : Obj), storeGet st iso = some r →
      storeGet (scaffoldRun st) iso = some r)
    ∧ (∀ (st : Store) (iso : String), iso ∈ scaffoldDates.map toIso →
      storeGet st iso = none →
      storeGet (scaffoldRun st) iso = some (emptyDay iso))
    ∧ (∀ st : Store, scaffoldRun (scaffoldRun st) = scaffoldRun st)
    ∧ scaffoldDates.head? = some projectStart
    ∧ (1776, 7, 4) ∈ scaffoldDates
    ∧ scaffoldDates.length = 367 := by
  refine ⟨?_, ?_, ?_, rfl, by decide, by decide⟩
  · intro st iso r h
    exact scaffold_foldl_preserves scaffoldDates st h
  · intro st iso hm hn
    exact scaffold_foldl_creates scaffoldDates st hm (Or.inl hn)
  · intro st
    exact scaffold_foldl_id scaffoldDates _
      (fun dt hdt => storeHas_foldl_after scaffoldDates st hdt)

/-- Witness for `scaffold_generator`: a store holding only an unrelated
record gains the legacy-shape empty record for 1775-07-04, and the
existing record is untouched. -/
theorem scaffold_generator_witness :
    storeGet (scaffoldRun [("other", [("date", JVal.str "other")])])
      "1775-07-04" = some (emptyDay "1775-07-04") ∧
    storeGet (scaffoldRun [("other", [("date", JVal.str "other")])])
      "other" = some [("date", JVal.str "other")] :=
  ⟨scaffold_generator.2.1 [("other", [("date", JVal.str "other")])]
    "1775-07-04"
    (by rw [scaffoldDates_head, List.map_cons]; exact List.mem_cons_self _ _)
    rfl,
   scaffold_generator.1 [("other", [("date", JVal.str "other")])]
    "other" [("date", JVal.str "other")] rfl⟩
